import Mathlib

/-!
# Verification of the path-resolution / sandbox core and the tree enumerator

Shallow embedding of the security-critical core of the repository:

* `Sanitization.sanitizePath` (src/…/docs/tree.md, the `sanitization` utility),
* `ServerState.resolvePath` / session default path (src/mcp-server/state.ts),
* `readDirectoryRecursive` / `listFilesLogic` (src/mcp-server/tools/listFiles/listFilesLogic.ts),
* the exclude-pattern matcher of `buildTreeForTesting`
  (github-2-smithery-ai/…/weather/src/index.ts test appendix).

The code runs on Node.js; all `path` module operations are modelled with POSIX
semantics (separator `'/'`, `path.sep = "/"`, `path.isAbsolute s ↔ s` starts
with `'/'`), which is the platform the sandbox targets.  Strings are modelled
by Lean `String`, with every operation defined on the underlying character
list so that everything is computable by `decide`/`rfl`.

`process.cwd()` is passed explicitly as a `cwd : String` argument (Node
guarantees it is an absolute path).
-/

namespace PathCore

/-- A path segment: the characters between two `'/'` separators. -/
abbrev Seg := List Char

/-- Split a character list on `'/'` (the behaviour of splitting a POSIX path
into segments; empty segments are kept, as in Node's parsing). -/
def splitSl : List Char → List Seg
  | [] => [[]]
  | c :: rest =>
    if c = '/' then [] :: splitSl rest
    else
      match splitSl rest with
      | [] => [[c]]
      | s :: ss => (c :: s) :: ss

/-- Join segments with `'/'` (inverse of `splitSl` on slash-free segments). -/
def interSegs : List Seg → List Char
  | [] => []
  | [s] => s
  | s :: rest => s ++ '/' :: interSegs rest

/-- One step of Node's `normalizeString`: push a segment onto the processed
stack, resolving `""`/`"."`/`".."`.  `allow` is Node's `allowAboveRoot`. -/
def pushSeg (allow : Bool) (acc : List Seg) (s : Seg) : List Seg :=
  if s = [] ∨ s = ['.'] then acc
  else if s = ['.', '.'] then
    match acc with
    | [] => if allow then [s] else []
    | a :: rest => if a = ['.', '.'] then (if allow then s :: acc else acc) else rest
  else s :: acc

/-- Run `pushSeg` over a list of segments (the stack grows to the left). -/
def runSegs (allow : Bool) (acc : List Seg) (l : List Seg) : List Seg :=
  l.foldl (pushSeg allow) acc

/-- Node's `normalizeString` at segment level: resolve `.` and `..` segments. -/
def normSegs (allow : Bool) (l : List Seg) : List Seg :=
  (runSegs allow [] l).reverse

/-- `path.isAbsolute` (POSIX): the path starts with `'/'`. -/
def isAbsoluteL : List Char → Bool
  | [] => false
  | c :: _ => c = '/'

def isAbsolute (s : String) : Bool := isAbsoluteL s.data

/-- Whether the path ends with a `'/'` (Node's `trailingSeparator`). -/
def trailingSl (l : List Char) : Bool :=
  match l.getLast? with
  | some c => c = '/'
  | none => false

/-- `path.normalize` (POSIX), translated from Node's implementation. -/
def normalizeStr (s : String) : String :=
  if s = "" then "."
  else
    let abs := isAbsoluteL s.data
    let trailing := trailingSl s.data
    let ns := normSegs (!abs) (splitSl s.data)
    let p := interSegs ns
    if p = [] then (if abs then "/" else if trailing then "./" else ".")
    else ⟨(if abs then '/' :: p else p) ++ (if trailing then ['/'] else [])⟩

/-- `path.resolve` applied to one absolute anchor: normalize to the canonical
absolute form `'/' :: interSegs cleanSegments`. -/
def normAbsChars (l : List Char) : String :=
  ⟨'/' :: interSegs (normSegs false (splitSl l))⟩

/-- `path.resolve(p)` (one argument) with explicit working directory. -/
def resolve1 (cwd p : String) : String :=
  if isAbsolute p then normAbsChars p.data
  else normAbsChars (cwd.data ++ '/' :: p.data)

/-- `path.resolve(a, b)` (two arguments) with explicit working directory. -/
def resolve2 (cwd a b : String) : String :=
  if isAbsolute b then normAbsChars b.data
  else if isAbsolute a then normAbsChars (a.data ++ '/' :: b.data)
  else normAbsChars (cwd.data ++ '/' :: a.data ++ '/' :: b.data)

/-- The non-empty segments of a path string. -/
def cleanSegsOf (s : String) : List Seg :=
  (splitSl s.data).filter (fun x => x ≠ [])

/-- Drop the longest common prefix of two segment lists, returning both
remainders. -/
def dropCommon : List Seg → List Seg → List Seg × List Seg
  | [], t => ([], t)
  | f, [] => (f, [])
  | a :: f, b :: t => if a = b then dropCommon f t else (a :: f, b :: t)

/-- `path.relative(from, to)` (POSIX): resolve both, drop the common segment
prefix, then climb with `..` and descend into the remainder. -/
def relative (cwd src dst : String) : String :=
  let f := cleanSegsOf (resolve1 cwd src)
  let t := cleanSegsOf (resolve1 cwd dst)
  let (f', t') := dropCommon f t
  ⟨interSegs (f'.map (fun _ => ['.', '.']) ++ t')⟩

/-- `path.join(a, b)`: skip empty parts, join with `'/'`, normalize; all-empty
input yields `"."`. -/
def joinPath (a b : String) : String :=
  if a = "" ∧ b = "" then "."
  else if a = "" then normalizeStr b
  else if b = "" then normalizeStr a
  else normalizeStr ⟨a.data ++ '/' :: b.data⟩

/-- `String.startsWith`, via list prefixes. -/
def startsWithStr (s pre : String) : Bool := pre.data.isPrefixOf s.data

/-- Whether the string contains the NUL character (`input.includes("\0")`). -/
def containsNull (s : String) : Bool := s.data.any (fun c => c = Char.ofNat 0)

/-- Replace every backslash by a forward slash (`normalized.replace(/\\/g, "/")`). -/
def posixify (s : String) : String :=
  ⟨s.data.map (fun c => if c = '\\' then '/' else c)⟩

def isAsciiAlpha (c : Char) : Bool :=
  ('A' ≤ c ∧ c ≤ 'Z') ∨ ('a' ≤ c ∧ c ≤ 'z')

/-- Drop every leading `'/'` or `'\'`. -/
def dropSlashes : List Char → List Char
  | [] => []
  | c :: rest => if c = '/' ∨ c = '\\' then dropSlashes rest else c :: rest

/-- `normalized.replace(/^(?:[A-Za-z]:)?[/\\]+/, "")`: strip an optional drive
letter followed by at least one slash, or a leading run of slashes; leave the
string unchanged when the regex does not match at the start. -/
def stripRootMarker (s : String) : String :=
  match s.data with
  | c₁ :: ':' :: c₂ :: rest =>
    if isAsciiAlpha c₁ ∧ (c₂ = '/' ∨ c₂ = '\\') then ⟨dropSlashes (c₂ :: rest)⟩
    else if c₁ = '/' ∨ c₁ = '\\' then ⟨dropSlashes (c₁ :: ':' :: c₂ :: rest)⟩
    else s
  | c₁ :: rest =>
    if c₁ = '/' ∨ c₁ = '\\' then ⟨dropSlashes (c₁ :: rest)⟩ else s
  | [] => s

end PathCore

open PathCore

/-! ## Error model (`types-global/errors.ts`) -/

inductive BaseErrorCode where
  | VALIDATION_ERROR
  | FORBIDDEN
  | NOT_FOUND
  | INTERNAL_ERROR
deriving DecidableEq

/-- `McpError`: a typed error with code, message and (a string-pair model of)
the logging context. -/
structure McpError where
  code : BaseErrorCode
  message : String
  context : List (String × String) := []
deriving DecidableEq

/-! ## `Sanitization.sanitizePath` (docs/tree.md lines 423–527) -/

/-- `PathSanitizeOptions`. -/
structure PathSanitizeOptions where
  toPosix : Bool := false
  allowAbsolute : Bool := false
  rootDir : Option String := none
deriving DecidableEq

/-- `SanitizedPathInfo` (the `optionsUsed` field stores the effective options,
with `rootDir` already resolved, as in the source). -/
structure SanitizedPathInfo where
  sanitizedPath : String
  originalInput : String
  wasAbsolute : Bool
  convertedToRelative : Bool
  optionsUsed : PathSanitizeOptions
deriving DecidableEq

instance {ε α : Type} [DecidableEq ε] [DecidableEq α] : DecidableEq (Except ε α) := fun a b =>
  match a, b with
  | .ok x, .ok y => decidable_of_iff (x = y) (by constructor <;> (intro h; cases h <;> rfl))
  | .error x, .error y => decidable_of_iff (x = y) (by constructor <;> (intro h; cases h <;> rfl))
  | .ok _, .error _ => .isFalse (by intro h; cases h)
  | .error _, .ok _ => .isFalse (by intro h; cases h)

/-- The `McpError` produced by `sanitizePath`'s catch-all handler. -/
def mkValErr (msg input : String) : McpError :=
  { code := .VALIDATION_ERROR, message := msg, context := [("input", input)] }

/-- `Sanitization.sanitizePath`, translated clause by clause from the source.
`cwd` models `process.cwd()`. -/
def sanitizePath (cwd : String) (input : String) (options : PathSanitizeOptions) :
    Except McpError SanitizedPathInfo :=
  let effOptions : PathSanitizeOptions :=
    { toPosix := options.toPosix
      allowAbsolute := options.allowAbsolute
      rootDir := options.rootDir.map (fun r => resolve1 cwd r) }
  if input = "" then
    .error (mkValErr "Invalid path input: must be a non-empty string." input)
  else if containsNull input then
    .error (mkValErr "Path contains null byte, which is disallowed." input)
  else
    let normalized₀ := normalizeStr input
    let wasAbsoluteInitially := isAbsolute normalized₀
    let normalized := if effOptions.toPosix then posixify normalized₀ else normalized₀
    match effOptions.rootDir with
    | some rd =>
      let fullPath := resolve2 cwd rd normalized
      if ¬ (startsWithStr fullPath (rd ++ "/") = true) ∧ fullPath ≠ rd then
        .error (mkValErr
          "Path traversal detected: attempts to escape the defined root directory." input)
      else
        let rel := relative cwd rd fullPath
        let finalSanitizedPath := if rel = "" then "." else rel
        if isAbsolute finalSanitizedPath = true ∧ ¬ (effOptions.allowAbsolute = true) then
          .error (mkValErr
            "Path resolved to absolute outside root when absolute paths are disallowed." input)
        else
          .ok { sanitizedPath := finalSanitizedPath
                originalInput := input
                wasAbsolute := wasAbsoluteInitially
                convertedToRelative :=
                  wasAbsoluteInitially ∧ ¬ (isAbsolute finalSanitizedPath = true)
                    ∧ ¬ (effOptions.allowAbsolute = true)
                optionsUsed := effOptions }
    | none =>
      if isAbsolute normalized then
        if ¬ (effOptions.allowAbsolute = true) then
          let finalSanitizedPath := stripRootMarker normalized
          .ok { sanitizedPath := finalSanitizedPath
                originalInput := input
                wasAbsolute := wasAbsoluteInitially
                convertedToRelative :=
                  wasAbsoluteInitially ∧ ¬ (isAbsolute finalSanitizedPath = true)
                    ∧ ¬ (effOptions.allowAbsolute = true)
                optionsUsed := effOptions }
        else
          .ok { sanitizedPath := normalized
                originalInput := input
                wasAbsolute := wasAbsoluteInitially
                convertedToRelative :=
                  wasAbsoluteInitially ∧ ¬ (isAbsolute normalized = true)
                    ∧ ¬ (effOptions.allowAbsolute = true)
                optionsUsed := effOptions }
      else
        let resolvedAgainstCwd := resolve1 cwd normalized
        let currentWorkingDir := resolve1 cwd "."
        if ¬ (startsWithStr resolvedAgainstCwd (currentWorkingDir ++ "/") = true)
            ∧ resolvedAgainstCwd ≠ currentWorkingDir then
          .error (mkValErr
            "Relative path traversal detected (escapes current working directory context)." input)
        else
          .ok { sanitizedPath := normalized
                originalInput := input
                wasAbsolute := wasAbsoluteInitially
                convertedToRelative :=
                  wasAbsoluteInitially ∧ ¬ (isAbsolute normalized = true)
                    ∧ ¬ (effOptions.allowAbsolute = true)
                optionsUsed := effOptions }

/-! ## `ServerState` and `resolvePath` (src/mcp-server/state.ts) -/

/-- The in-memory session state of `ServerState`:
`defaultFilesystemPath` (the session default, mutable) and
`fsBaseDirectory` (the sandbox base, fixed at startup; `none` when the
sandbox is disabled). -/
structure ServerStateM where
  defaultFilesystemPath : Option String
  fsBaseDirectory : Option String
deriving DecidableEq

/-- The options `resolvePath` passes to `sanitizePath`
(`{ allowAbsolute: true, toPosix: true }`). -/
def resolveOpts : PathSanitizeOptions :=
  { toPosix := true, allowAbsolute := true, rootDir := none }

/-- The candidate absolute path computed by `resolvePath` before sanitization:
the requested path itself when absolute, otherwise the join of the session
default (when set) with the requested path. -/
def candidateOf (st : ServerStateM) (requestedPath : String) : Option String :=
  if isAbsolute requestedPath then some requestedPath
  else st.defaultFilesystemPath.map (fun d => joinPath d requestedPath)

/-- The `VALIDATION_ERROR` thrown when a relative path arrives with no session
default set. -/
def noDefaultErr (requestedPath : String) : McpError :=
  { code := .VALIDATION_ERROR
    message := "Relative path provided, but no default filesystem path has been set for this session. Please provide an absolute path or set a default path first."
    context := [("path", requestedPath)] }

/-- The `FORBIDDEN` error thrown on a sandbox boundary violation, carrying
both the requested and the resolved path in its context. -/
def forbiddenErr (requestedPath sanitizedAbsolutePath : String) : McpError :=
  { code := .FORBIDDEN
    message := "Access denied: The path \"" ++ requestedPath ++ "\" resolves to a location outside the allowed base directory."
    context := [("requestedPath", requestedPath), ("resolvedPath", sanitizedAbsolutePath)] }

/-- The sanitize-then-boundary-check tail of `resolvePath` (state.ts lines
112–148), applied to an already-determined candidate absolute path. -/
def finishResolve (cwd : String) (st : ServerStateM) (requestedPath absolutePath : String) :
    Except McpError String :=
  match sanitizePath cwd absolutePath resolveOpts with
  | .error e => .error e
  | .ok info =>
    let sanitizedAbsolutePath := info.sanitizedPath
    match st.fsBaseDirectory with
    | none => .ok sanitizedAbsolutePath
    | some base =>
      let normalizedFsBaseDirectory := normalizeStr base
      let normalizedSanitizedAbsolutePath := normalizeStr sanitizedAbsolutePath
      if ¬ (startsWithStr normalizedSanitizedAbsolutePath
              (normalizedFsBaseDirectory ++ "/") = true)
          ∧ normalizedSanitizedAbsolutePath ≠ normalizedFsBaseDirectory then
        .error (forbiddenErr requestedPath sanitizedAbsolutePath)
      else
        .ok sanitizedAbsolutePath

/-- `ServerState.resolvePath` (state.ts lines 91–149), translated clause by
clause: absolute paths are used directly; relative paths require the session
default and are joined onto it; the candidate is sanitized with
`{ allowAbsolute: true, toPosix: true }`; finally the `FS_BASE_DIRECTORY`
boundary is enforced on the normalized forms. -/
def resolvePath (cwd : String) (st : ServerStateM) (requestedPath : String) :
    Except McpError String :=
  if isAbsolute requestedPath then
    finishResolve cwd st requestedPath requestedPath
  else
    match st.defaultFilesystemPath with
    | none => .error (noDefaultErr requestedPath)
    | some d => finishResolve cwd st requestedPath (joinPath d requestedPath)

/-! ## The filesystem model

`readDirectoryRecursive` and `buildTreeForTesting` interact with the
filesystem only through `fs.readdir(..., { withFileTypes: true })`.  A
directory tree is modelled as an `FSNode`; `fs.readdir` on a file fails with
`ENOTDIR`, on a missing path with `ENOENT`, and `badDir` models a directory
whose `readdir` fails with some other error (e.g. `EACCES`) carrying the
given message.  Entries are listed in the order the OS returns them. -/

inductive FSNode where
  | file : FSNode
  | badDir (msg : String) : FSNode
  | dir (entries : List (String × FSNode)) : FSNode

/-- `entry.isDirectory()`: `badDir` is a directory (only its read fails). -/
def FSNode.isDirectory : FSNode → Bool
  | .file => false
  | _ => true

/-! ## `listFiles` (src/mcp-server/tools/listFiles/listFilesLogic.ts) -/

/-- The mutable `state` object threaded through `readDirectoryRecursive`
(`{ count, limit, truncated }`). -/
structure TraversalBudget where
  count : Nat
  limit : Nat
  truncated : Bool
deriving DecidableEq

/-- `DirectoryItem` from listFilesLogic.ts: `children` is only populated for
directories visited recursively, `error` records a failed nested read. -/
inductive DirectoryItem where
  | mk (name : String) (isDirectory : Bool)
       (children : Option (List DirectoryItem)) (error : Option String) : DirectoryItem

def DirectoryItem.name : DirectoryItem → String
  | .mk n _ _ _ => n

def DirectoryItem.isDirectory : DirectoryItem → Bool
  | .mk _ d _ _ => d

def DirectoryItem.children : DirectoryItem → Option (List DirectoryItem)
  | .mk _ _ c _ => c

def DirectoryItem.error : DirectoryItem → Option String
  | .mk _ _ _ e => e

/-- Lexicographic (code-point) order on character lists. -/
def charsLe : List Char → List Char → Bool
  | [], _ => true
  | _ :: _, [] => false
  | a :: as, b :: bs =>
    decide (a.toNat < b.toNat) || ((a = b : Bool) && charsLe as bs)

/-- `a.localeCompare(b) <= 0`, modelled as the code-point order on strings
(the default collation agrees with it on the ASCII names exercised here). -/
def strLe (a b : String) : Bool := charsLe a.data b.data

/-- The sort comparator of listFilesLogic.ts lines 115–120 as a `≤` relation:
directories before files, then by name. -/
def itemLEb (a b : DirectoryItem) : Bool :=
  if a.isDirectory = b.isDirectory then strLe a.name b.name else a.isDirectory

def itemR (a b : DirectoryItem) : Prop := itemLEb a b = true

instance : DecidableRel itemR := fun a b => instDecidableEqBool (itemLEb a b) true

/-- `items.sort(comparator)`. -/
def sortItems (l : List DirectoryItem) : List DirectoryItem :=
  List.insertionSort itemR l

/-- Processing of one entry inside the loop (lines 83–105): the recursive
`readDirectoryRecursive` call on a subdirectory — its entry budget check
(lines 55–58), the read, the per-level sort (lines 114–120) — wrapped in the
`try/catch` that records a failed nested read on the item and drops its
children (lines 96–104).  `recCall` is the recursive enumeration of a
subdirectory's entries (tied to `goListF` below); the result is
`(children?, error?, state-after)`. -/
def entryStep
    (recCall : List (String × FSNode) → TraversalBudget → List DirectoryItem × TraversalBudget)
    (nested : Bool) (node : FSNode) (st1 : TraversalBudget) :
    Option (List DirectoryItem) × Option String × TraversalBudget :=
  if node.isDirectory ∧ nested then
    match node with
    | .dir entries =>
      if st1.truncated ∨ st1.limit ≤ st1.count then
        (some [], none, { st1 with truncated := true })
      else
        let rec₁ := recCall entries st1
        (some (sortItems rec₁.1), none, rec₁.2)
    | .badDir msg =>
      if st1.truncated ∨ st1.limit ≤ st1.count then
        (some [], none, { st1 with truncated := true })
      else
        (none, some ("Failed to read directory: " ++ msg), st1)
    | .file => (none, none, st1)
  else
    (none, none, st1)

/-- The entry loop of `readDirectoryRecursive` (lines 76–112): the budget is
checked before each entry (lines 77–81), the count is incremented per entry
(line 83), subdirectories are processed by `entryStep`, and the loop breaks
once truncated (lines 109–111).  The first argument is recursion fuel,
consumed at every call; any `fuel` at least the total number of entry-list
constructors is enough for the recursion never to hit `0`, since every
recursive call is on a structurally smaller entry list. -/
def goListF : Nat → Bool → List (String × FSNode) → TraversalBudget →
    List DirectoryItem × TraversalBudget
  | 0, _, _, st => ([], st)
  | _ + 1, _, [], st => ([], st)
  | fuel + 1, nested, (name, node) :: rest, st =>
    if st.limit ≤ st.count then
      ([], { st with truncated := true })
    else
      let st1 : TraversalBudget := { st with count := st.count + 1 }
      let step := entryStep (goListF fuel nested) nested node st1
      let item := DirectoryItem.mk name node.isDirectory step.1 step.2.1
      let st2 := step.2.2
      if st2.truncated then ([item], st2)
      else
        let rest' := goListF fuel nested rest st2
        (item :: rest'.1, rest'.2)

/-- `readDirectoryRecursive` at the root (lines 49–123): budget pre-check,
`fs.readdir` with its three failure modes, the entry loop, and the final
per-level sort.  `root = none` models a missing path (`ENOENT`).  `fuel`
bounds the recursion of the entry loop; any `fuel` at least the number of
constructors of `root` is enough for the recursion never to exhaust it, and
the invariants below are proved for every `fuel`. -/
def readDirectoryRecursiveM (fuel : Nat) (dirPath : String) (includeNested : Bool)
    (root : Option FSNode) (st : TraversalBudget) :
    Except McpError (List DirectoryItem × TraversalBudget) :=
  if st.truncated ∨ st.limit ≤ st.count then .ok ([], { st with truncated := true })
  else
    match root with
    | none =>
      .error { code := .NOT_FOUND
               message := "Directory not found at path: " ++ dirPath }
    | some .file =>
      .error { code := .VALIDATION_ERROR
               message := "Path is not a directory: " ++ dirPath }
    | some (.badDir msg) =>
      .error { code := .INTERNAL_ERROR
               message := "Failed to read directory: " ++ msg }
    | some (.dir entries) =>
      let r := goListF fuel includeNested entries st
      .ok (sortItems r.1, r.2)

/-- `listFilesLogic` after path resolution (lines 179–203): fresh budget
`{count: 0, limit: maxEntries, truncated: false}`, the recursive read, and
the returned `itemCount`/`truncated`. -/
def listTree (fuel : Nat) (root : Option FSNode) (dirPath : String) (includeNested : Bool)
    (maxEntries : Nat) : Except McpError (List DirectoryItem × Nat × Bool) :=
  match readDirectoryRecursiveM fuel dirPath includeNested root
      { count := 0, limit := maxEntries, truncated := false } with
  | .error e => .error e
  | .ok (items, st) => .ok (items, st.count, st.truncated)

def itemNames (l : List DirectoryItem) : List String := l.map DirectoryItem.name

/-! ## The exclude-pattern matcher of `buildTreeForTesting`
(github-2-smithery-ai weather/src/index.ts appendix, lines 817–850).

`minimatch(relativePath, pattern, {dot: true})` is modelled segment-wise:
`**` matches any number of whole segments, `*` and `?` match within a
segment, everything else matches literally (with `{dot: true}` there is no
special treatment of leading dots).  The pattern forms exercised by the
claims (`name`, `**/name`, `**/name/**`, `*.ext`) are exactly the forms this
model covers. -/

/-- Wildcard match of one pattern segment against one path segment
(`*` = any run of characters, `?` = one character). Fuel-indexed so that it
computes by `decide`; `fuel ≥ |p| + |s| + 1` always suffices. -/
def segMatchF : Nat → List Char → List Char → Bool
  | 0, _, _ => false
  | _ + 1, [], [] => true
  | _ + 1, [], _ :: _ => false
  | fuel + 1, '*' :: ps, [] => segMatchF fuel ps []
  | fuel + 1, '*' :: ps, c :: cs =>
    segMatchF fuel ps (c :: cs) || segMatchF fuel ('*' :: ps) cs
  | _ + 1, '?' :: _, [] => false
  | fuel + 1, '?' :: ps, _ :: cs => segMatchF fuel ps cs
  | _ + 1, _ :: _, [] => false
  | fuel + 1, p :: ps, c :: cs => (p = c : Bool) && segMatchF fuel ps cs

def segMatch (p s : List Char) : Bool := segMatchF (p.length + s.length + 1) p s

/-- Glob match at segment-list level with `**` support. -/
def globSegsF : Nat → List Seg → List Seg → Bool
  | 0, _, _ => false
  | _ + 1, [], [] => true
  | _ + 1, [], _ :: _ => false
  | fuel + 1, p :: ps, [] => (p = ['*', '*'] : Bool) && globSegsF fuel ps []
  | fuel + 1, p :: ps, s :: ss =>
    if p = ['*', '*'] then globSegsF fuel ps (s :: ss) || globSegsF fuel (p :: ps) ss
    else segMatch p s && globSegsF fuel ps ss

/-- `minimatch(str, pattern, {dot: true})` on the modelled pattern forms. -/
def minimatchM (str pattern : String) : Bool :=
  let ps := splitSl pattern.data
  let ss := splitSl str.data
  globSegsF (ps.length + ss.length + 1) ps ss

/-- The exclusion test of buildTreeForTesting (lines 823–832), translated
from the source: a pattern containing `*` is tried as-is only; a pattern
without `*` is tried as-is, as `**/pattern` and as `**/pattern/**`. -/
def shouldExcludePat (relativePath pattern : String) : Bool :=
  if pattern.data.any (fun c => c = '*') then
    minimatchM relativePath pattern
  else
    minimatchM relativePath pattern
    || minimatchM relativePath ("**/" ++ pattern)
    || minimatchM relativePath ("**/" ++ pattern ++ "/**")

def shouldExclude (excludePatterns : List String) (relativePath : String) : Bool :=
  excludePatterns.any (fun pattern => shouldExcludePat relativePath pattern)

/-- The matcher the claim describes: *every* pattern (with or without `*`)
tried in the triple form — exact, `**/pattern`, `**/pattern/**`.  Stated from
the claim's words, to be compared with `shouldExcludePat` above. -/
def excludedTripleSpec (relativePath pattern : String) : Bool :=
  minimatchM relativePath pattern
  || minimatchM relativePath ("**/" ++ pattern)
  || minimatchM relativePath ("**/" ++ pattern ++ "/**")

/-- `TreeEntry` of the weather-appendix test file. -/
inductive TreeEntry where
  | mk (name : String) (isDir : Bool) (children : Option (List TreeEntry)) : TreeEntry

def TreeEntry.name : TreeEntry → String
  | .mk n _ _ => n

/-- `buildTreeForTesting` (lines 817–850) on the `FSNode` model: list the
entries of the current directory, skip excluded ones (exclusion tested on the
path relative to the enumeration root), and recurse into directories; a
failing `readdir` rejects the whole call (there is no catch).  `pre` is the
root-relative path of the current directory (`""` at the root). -/
def buildTreeM : Nat → FSNode → String → List String → Except String (List TreeEntry)
  | 0, _, _, _ => .error "out of fuel"
  | _ + 1, .file, _, _ => .error "ENOTDIR"
  | _ + 1, .badDir msg, _, _ => .error msg
  | fuel + 1, .dir entries, pre, excludePatterns =>
    let rec go : List (String × FSNode) → Except String (List TreeEntry)
      | [] => .ok []
      | (name, node) :: rest => do
        let relativePath := if pre = "" then name else pre ++ "/" ++ name
        if shouldExclude excludePatterns relativePath then
          go rest
        else
          let children ← if node.isDirectory then
              (buildTreeM fuel node relativePath excludePatterns).map some
            else pure none
          let restEntries ← go rest
          pure (TreeEntry.mk name node.isDirectory children :: restEntries)
    go entries

/-- Whether the forest contains an entry at the given segment path. -/
def hasPath : List TreeEntry → List String → Bool
  | _, [] => true
  | forest, n :: rest =>
    forest.any (fun e =>
      match e with
      | .mk name _ children =>
        (name = n : Bool) &&
          (match rest, children with
           | [], _ => true
           | _ :: _, some c => hasPath c rest
           | _ :: _, none => false))

/-- The directory structure built by the exclude-pattern test
(weather appendix `beforeEach`, lines 855–871). -/
def demoFS : FSNode :=
  .dir [("src", .dir [("index.js", .file)]),
        ("node_modules", .dir [("module.js", .file)]),
        (".git", .dir []),
        ("nested", .dir [("node_modules", .dir [("deep.js", .file)])]),
        (".env", .file),
        (".env.local", .file),
        ("package.json", .file)]


/-! ## Shared lemmas about `resolvePath` -/

/-- `resolvePath` is `finishResolve` applied to the candidate path (or the
no-default error when there is no candidate). -/
theorem resolvePath_eq_candidate (cwd : String) (st : ServerStateM) (req : String) :
    resolvePath cwd st req =
      match candidateOf st req with
      | none => .error (noDefaultErr req)
      | some a => finishResolve cwd st req a := by
  unfold resolvePath candidateOf
  by_cases h : isAbsolute req = true
  · simp [h]
  · simp only [Bool.not_eq_true] at h
    simp only [h, Bool.false_eq_true, if_false]
    cases st.defaultFilesystemPath <;> simp

/-- Specialization: a present candidate resolves through `finishResolve`. -/
theorem resolvePath_of_candidate (cwd : String) (st : ServerStateM) (req a : String)
    (h : candidateOf st req = some a) :
    resolvePath cwd st req = finishResolve cwd st req a := by
  rw [resolvePath_eq_candidate, h]

/-! ## Claims -/

/-- **C2.** For every input string containing a null byte, `sanitizePath`
fails with `VALIDATION_ERROR` for every combination of options, before any
normalization or root-directory processing. -/
theorem claim_C2_null_byte_always_rejected (cwd input : String)
    (opts : PathSanitizeOptions) (h : containsNull input = true) :
    sanitizePath cwd input opts =
      .error (mkValErr "Path contains null byte, which is disallowed." input) := by
  have hne : ¬ (input = "") := by
    intro he
    rw [he] at h
    simp [containsNull] at h
  unfold sanitizePath
  simp only [if_neg hne, h, if_true]

/-- Witness for C2 at the concrete input `"a\x00b"`. -/
theorem claim_C2_witness :
    containsNull "a\x00b" = true ∧
      sanitizePath "/home" "a\x00b" {} =
        .error (mkValErr "Path contains null byte, which is disallowed." "a\x00b") :=
  ⟨by decide, claim_C2_null_byte_always_rejected "/home" "a\x00b" {} (by decide)⟩

/-- **C5.** For every relative `requestedPath`: with no `SessionDefaultPath`
set, `resolvePath` fails `VALIDATION_ERROR`; with a default set, the
candidate is the join of the default with the requested path, fed to the
sanitize-and-boundary-check tail. -/
theorem claim_C5_relative_requires_default (cwd : String) (st : ServerStateM)
    (requestedPath : String) (h : isAbsolute requestedPath = false) :
    (st.defaultFilesystemPath = none →
      resolvePath cwd st requestedPath = .error (noDefaultErr requestedPath)) ∧
    (∀ d, st.defaultFilesystemPath = some d →
      resolvePath cwd st requestedPath =
        finishResolve cwd st requestedPath (joinPath d requestedPath)) := by
  constructor
  · intro hnone
    unfold resolvePath
    simp [h, hnone]
  · intro d hd
    unfold resolvePath
    simp [h, hd]

/-- Witness for C5: `resolvePath("notes.txt")` with no default set fails, and
with default `/sandbox/work` it resolves through the join. -/
theorem claim_C5_witness :
    isAbsolute "notes.txt" = false ∧
      resolvePath "/home" ⟨none, none⟩ "notes.txt" = .error (noDefaultErr "notes.txt") ∧
      resolvePath "/home" ⟨some "/sandbox/work", none⟩ "notes.txt" =
        finishResolve "/home" ⟨some "/sandbox/work", none⟩ "notes.txt"
          (joinPath "/sandbox/work" "notes.txt") :=
  ⟨by decide,
   (claim_C5_relative_requires_default "/home" ⟨none, none⟩ "notes.txt" (by decide)).1 rfl,
   (claim_C5_relative_requires_default "/home" ⟨some "/sandbox/work", none⟩ "notes.txt"
      (by decide)).2 "/sandbox/work" rfl⟩

/-- **C10.** For every absolute `requestedPath` the outcome of `resolvePath`
is identical for any two values of the session default path: an absolute
input never reads `SessionDefaultPath`. -/
theorem claim_C10_absolute_ignores_default (cwd requestedPath : String)
    (h : isAbsolute requestedPath = true) (d₁ d₂ : Option String) (base : Option String) :
    resolvePath cwd ⟨d₁, base⟩ requestedPath = resolvePath cwd ⟨d₂, base⟩ requestedPath := by
  unfold resolvePath
  simp only [h, if_true]
  rfl

/-- Witness for C10 at `"/etc/hosts"` with two different defaults. -/
theorem claim_C10_witness :
    isAbsolute "/etc/hosts" = true ∧
      resolvePath "/home" ⟨some "/a", some "/etc"⟩ "/etc/hosts" =
        resolvePath "/home" ⟨some "/b", some "/etc"⟩ "/etc/hosts" :=
  ⟨by decide,
   claim_C10_absolute_ignores_default "/home" "/etc/hosts" (by decide)
     (some "/a") (some "/b") (some "/etc")⟩

/-- **C1.** With a sandbox base directory active, (i) every path returned
successfully by `resolvePath` satisfies
`path == base || path.startsWith(base + sep)` over the normalized forms, and
(ii) when the sanitized candidate violates that prefix invariant,
`resolvePath` fails with the `FORBIDDEN` error carrying both the requested
and the resolved path — it never truncates or rewrites the path. -/
theorem claim_C1_sandbox_boundary (cwd : String) (st : ServerStateM)
    (requestedPath base : String) (hbase : st.fsBaseDirectory = some base) :
    (∀ p, resolvePath cwd st requestedPath = .ok p →
      normalizeStr p = normalizeStr base ∨
        startsWithStr (normalizeStr p) (normalizeStr base ++ "/") = true) ∧
    (∀ a info, candidateOf st requestedPath = some a →
      sanitizePath cwd a resolveOpts = .ok info →
      ¬ (normalizeStr info.sanitizedPath = normalizeStr base ∨
          startsWithStr (normalizeStr info.sanitizedPath)
            (normalizeStr base ++ "/") = true) →
      resolvePath cwd st requestedPath =
        .error (forbiddenErr requestedPath info.sanitizedPath)) := by
  constructor
  · intro p hp
    rw [resolvePath_eq_candidate] at hp
    cases hc : candidateOf st requestedPath with
    | none => rw [hc] at hp; cases hp
    | some a =>
      rw [hc] at hp
      simp only [finishResolve] at hp
      cases hs : sanitizePath cwd a resolveOpts with
      | error e => rw [hs] at hp; simp only [] at hp; cases hp
      | ok info =>
        rw [hs] at hp
        simp only [hbase] at hp
        by_cases hviol :
            ¬ (startsWithStr (normalizeStr info.sanitizedPath)
                (normalizeStr base ++ "/") = true)
            ∧ normalizeStr info.sanitizedPath ≠ normalizeStr base
        · rw [if_pos hviol] at hp; cases hp
        · rw [if_neg hviol] at hp
          cases hp
          push_neg at hviol
          by_cases hpre : startsWithStr (normalizeStr info.sanitizedPath)
              (normalizeStr base ++ "/") = true
          · exact Or.inr hpre
          · exact Or.inl (hviol hpre)
  · intro a info hc hs hviol
    rw [resolvePath_of_candidate cwd st requestedPath a hc]
    unfold finishResolve
    rw [hs]
    simp only [hbase]
    rw [if_pos]
    push_neg at hviol
    exact ⟨hviol.2, hviol.1⟩

/-- Witness for C1: base `/sandbox`, default `/sandbox/work`; part (i) at the
in-bounds request `notes.txt`, part (ii) at the escaping request
`../../etc/passwd` (whose sanitized candidate is `/etc/passwd`). -/
theorem claim_C1_witness :
    (resolvePath "/home" ⟨some "/sandbox/work", some "/sandbox"⟩ "notes.txt"
        = .ok "/sandbox/work/notes.txt" ∧
      (normalizeStr "/sandbox/work/notes.txt" = normalizeStr "/sandbox" ∨
        startsWithStr (normalizeStr "/sandbox/work/notes.txt")
          (normalizeStr "/sandbox" ++ "/") = true)) ∧
    resolvePath "/home" ⟨some "/sandbox/work", some "/sandbox"⟩ "../../etc/passwd"
      = .error (forbiddenErr "../../etc/passwd" "/etc/passwd") := by
  refine ⟨⟨by decide, ?_⟩, ?_⟩
  · exact (claim_C1_sandbox_boundary "/home" ⟨some "/sandbox/work", some "/sandbox"⟩
      "notes.txt" "/sandbox" rfl).1 "/sandbox/work/notes.txt" (by decide)
  · have h := (claim_C1_sandbox_boundary "/home" ⟨some "/sandbox/work", some "/sandbox"⟩
      "../../etc/passwd" "/sandbox" rfl).2 (joinPath "/sandbox/work" "../../etc/passwd")
    have hinfo : sanitizePath "/home" (joinPath "/sandbox/work" "../../etc/passwd")
        resolveOpts = .ok ((sanitizePath "/home" (joinPath "/sandbox/work" "../../etc/passwd")
          resolveOpts).toOption.get (by decide)) := by decide
    exact h _ (by decide) hinfo (by decide)

/-! ## Lemmas for the `rootDir` branch of `sanitizePath` -/

namespace PathCore

theorem splitSl_ne_nil (l : List Char) : splitSl l ≠ [] := by
  cases l with
  | nil => simp [splitSl]
  | cons c rest =>
    rw [splitSl]
    by_cases hc : c = '/'
    · simp [hc]
    · rw [if_neg hc]
      cases splitSl rest <;> simp

theorem split_no_slash : ∀ (l : List Char), ∀ s ∈ splitSl l, '/' ∉ s := by
  intro l
  induction l with
  | nil =>
    intro s hs
    simp only [splitSl, List.mem_singleton] at hs
    subst hs; simp
  | cons c rest ih =>
    intro s hs
    by_cases hc : c = '/'
    · rw [splitSl, if_pos hc] at hs
      rcases List.mem_cons.mp hs with h | h
      · subst h; simp
      · exact ih s h
    · rw [splitSl, if_neg hc] at hs
      cases hsp : splitSl rest with
      | nil => exact absurd hsp (splitSl_ne_nil rest)
      | cons s0 ss =>
        rw [hsp] at hs
        rcases List.mem_cons.mp hs with h | h
        · subst h
          intro hmem
          rcases List.mem_cons.mp hmem with h' | h'
          · exact hc h'.symm
          · exact ih s0 (hsp ▸ List.mem_cons_self s0 ss) h'
        · exact ih s (hsp ▸ List.mem_cons_of_mem s0 h)

theorem dropCommon_snd_subset : ∀ (f t : List Seg), ∀ s ∈ (dropCommon f t).2, s ∈ t := by
  intro f
  induction f with
  | nil => intro t s hs; simpa [dropCommon] using hs
  | cons a f ih =>
    intro t s hs
    cases t with
    | nil => simp [dropCommon] at hs
    | cons b t =>
      by_cases hab : a = b
      · rw [dropCommon, if_pos hab] at hs
        exact List.mem_cons_of_mem _ (ih t s hs)
      · rw [dropCommon, if_neg hab] at hs
        exact hs

theorem isAbsoluteL_interSegs (L : List Seg) (h : ∀ s ∈ L, s ≠ [] ∧ '/' ∉ s) :
    isAbsoluteL (interSegs L) = false := by
  cases L with
  | nil => rfl
  | cons s t =>
    obtain ⟨hne, hnsl⟩ := h s (List.mem_cons_self s t)
    cases s with
    | nil => exact absurd rfl hne
    | cons c cs =>
      have hc : c ≠ '/' := fun hcc => hnsl (hcc ▸ List.mem_cons_self c cs)
      cases t with
      | nil => simp [interSegs, isAbsoluteL, hc]
      | cons s' t' => simp [interSegs, isAbsoluteL, hc]

/-- Elements of `cleanSegsOf` are non-empty and slash-free. -/
theorem cleanSegsOf_clean (p : String) : ∀ s ∈ cleanSegsOf p, s ≠ [] ∧ '/' ∉ s := by
  intro s hs
  rw [cleanSegsOf, List.mem_filter] at hs
  refine ⟨by simpa using hs.2, split_no_slash _ s hs.1⟩

/-- `path.relative` never returns an absolute path (POSIX). -/
theorem relative_not_absolute (cwd a b : String) : isAbsolute (relative cwd a b) = false := by
  show isAbsoluteL (interSegs
    (((dropCommon (cleanSegsOf (resolve1 cwd a)) (cleanSegsOf (resolve1 cwd b))).1).map
        (fun _ => ['.', '.']) ++
      (dropCommon (cleanSegsOf (resolve1 cwd a)) (cleanSegsOf (resolve1 cwd b))).2)) = false
  apply isAbsoluteL_interSegs
  intro s hs
  rcases List.mem_append.mp hs with h | h
  · rcases List.mem_map.mp h with ⟨_, _, hfn⟩
    subst hfn
    exact ⟨by simp, by decide⟩
  · exact cleanSegsOf_clean _ s (dropCommon_snd_subset _ _ s h)

end PathCore

/-- The absolute path `sanitizePath` resolves against a supplied `rootDir`
(`path.resolve(rootDir', normalized)` on the possibly-posixified normalized
input, with `rootDir' = path.resolve(rootDir)`). -/
def rootFullPath (cwd input : String) (opts : PathSanitizeOptions) (rd0 : String) : String :=
  resolve2 cwd (resolve1 cwd rd0)
    (if opts.toPosix then posixify (normalizeStr input) else normalizeStr input)

/-- The containment test of the `rootDir` branch:
`fullPath == rootDir' || fullPath.startsWith(rootDir' + sep)`. -/
def rootBoundaryOk (cwd input : String) (opts : PathSanitizeOptions) (rd0 : String) : Prop :=
  startsWithStr (rootFullPath cwd input opts rd0) (resolve1 cwd rd0 ++ "/") = true ∨
    rootFullPath cwd input opts rd0 = resolve1 cwd rd0

instance (cwd input : String) (opts : PathSanitizeOptions) (rd0 : String) :
    Decidable (rootBoundaryOk cwd input opts rd0) := by
  unfold rootBoundaryOk; infer_instance

/-- **C3.** With `rootDir` supplied: when the input, normalized and resolved
against the root, escapes it (fails the prefix-or-equal test), `sanitizePath`
fails `VALIDATION_ERROR`; otherwise it succeeds and returns the path relative
to the root, with the empty relative result normalized to `"."`. -/
theorem claim_C3_rootDir_confinement (cwd input : String) (opts : PathSanitizeOptions)
    (rd0 : String) (hroot : opts.rootDir = some rd0) (hne : input ≠ "")
    (hnull : containsNull input = false) :
    (¬ rootBoundaryOk cwd input opts rd0 →
      sanitizePath cwd input opts =
        .error (mkValErr
          "Path traversal detected: attempts to escape the defined root directory." input)) ∧
    (rootBoundaryOk cwd input opts rd0 →
      ∃ info, sanitizePath cwd input opts = .ok info ∧
        info.sanitizedPath =
          (if relative cwd (resolve1 cwd rd0) (rootFullPath cwd input opts rd0) = "" then "."
           else relative cwd (resolve1 cwd rd0) (rootFullPath cwd input opts rd0))) := by
  unfold sanitizePath
  simp only [hroot, Option.map_some', if_neg hne, hnull, Bool.false_eq_true, if_false]
  unfold rootBoundaryOk rootFullPath
  set N := (if opts.toPosix then posixify (normalizeStr input) else normalizeStr input) with hN
  set RD := resolve1 cwd rd0 with hRD
  set FP := resolve2 cwd RD N with hFP
  constructor
  · intro hviol
    push_neg at hviol
    rw [if_pos ⟨hviol.1, hviol.2⟩]
  · intro hb
    have hpass : ¬ (¬ startsWithStr FP (RD ++ "/") = true ∧ FP ≠ RD) := by
      intro hcontra
      rcases hb with h | h
      · exact hcontra.1 h
      · exact hcontra.2 h
    rw [if_neg hpass]
    have hdead : ¬ (isAbsolute (if relative cwd RD FP = "" then "." else relative cwd RD FP)
        = true ∧ ¬ (opts.allowAbsolute = true)) := by
      intro hcontra
      rcases hcontra with ⟨habs, _⟩
      by_cases hrel : relative cwd RD FP = ""
      · rw [if_pos hrel] at habs
        exact absurd habs (by decide)
      · rw [if_neg hrel] at habs
        rw [relative_not_absolute] at habs
        exact Bool.false_ne_true habs
    rw [if_neg hdead]
    exact ⟨_, rfl, rfl⟩

/-- Witness for C3: root `/root`; escaping input `sub/../../esc` fails,
in-bounds input `sub/x` returns `sub/x`. -/
theorem claim_C3_witness :
    ((¬ rootBoundaryOk "/home" "sub/../../esc" { rootDir := some "/root" } "/root") ∧
      sanitizePath "/home" "sub/../../esc" { rootDir := some "/root" } =
        .error (mkValErr
          "Path traversal detected: attempts to escape the defined root directory."
          "sub/../../esc")) ∧
    (rootBoundaryOk "/home" "sub/x" { rootDir := some "/root" } "/root" ∧
      ∃ info, sanitizePath "/home" "sub/x" { rootDir := some "/root" } = .ok info ∧
        info.sanitizedPath =
          (if relative "/home" (resolve1 "/home" "/root")
              (rootFullPath "/home" "sub/x" { rootDir := some "/root" } "/root") = "" then "."
           else relative "/home" (resolve1 "/home" "/root")
              (rootFullPath "/home" "sub/x" { rootDir := some "/root" } "/root"))) := by
  constructor
  · refine ⟨by decide, ?_⟩
    exact (claim_C3_rootDir_confinement "/home" "sub/../../esc" { rootDir := some "/root" }
      "/root" rfl (by decide) (by decide)).1 (by decide)
  · refine ⟨by decide, ?_⟩
    exact (claim_C3_rootDir_confinement "/home" "sub/x" { rootDir := some "/root" }
      "/root" rfl (by decide) (by decide)).2 (by decide)

/-! ## Budget invariants of the enumerator (for C6) -/

/-- Budget evolution invariant: the limit is fixed, the count never exceeds
`max count limit`, and truncation is monotone. -/
def budgetInv (st st' : TraversalBudget) : Prop :=
  st'.limit = st.limit ∧ st'.count ≤ max st.count st.limit ∧
    (st.truncated = true → st'.truncated = true)

theorem entryStep_inv
    (recCall : List (String × FSNode) → TraversalBudget → List DirectoryItem × TraversalBudget)
    (hrec : ∀ l st, budgetInv st (recCall l st).2)
    (nested : Bool) (node : FSNode) (st1 : TraversalBudget) :
    budgetInv st1 (entryStep recCall nested node st1).2.2 := by
  unfold entryStep
  by_cases hd : node.isDirectory = true ∧ nested = true
  · rw [if_pos hd]
    cases node with
    | file => exact ⟨rfl, le_max_left _ _, fun h => h⟩
    | badDir msg =>
      dsimp only
      by_cases hpre : st1.truncated = true ∨ st1.limit ≤ st1.count
      · rw [if_pos hpre]
        exact ⟨rfl, le_max_left _ _, fun _ => rfl⟩
      · rw [if_neg hpre]
        exact ⟨rfl, le_max_left _ _, fun h => h⟩
    | dir entries =>
      dsimp only
      by_cases hpre : st1.truncated = true ∨ st1.limit ≤ st1.count
      · rw [if_pos hpre]
        exact ⟨rfl, le_max_left _ _, fun _ => rfl⟩
      · rw [if_neg hpre]
        exact hrec entries st1
  · rw [if_neg hd]
    exact ⟨rfl, le_max_left _ _, fun h => h⟩

theorem goListF_inv : ∀ (fuel : Nat) (nested : Bool) (l : List (String × FSNode))
    (st : TraversalBudget), budgetInv st (goListF fuel nested l st).2 := by
  intro fuel
  induction fuel with
  | zero =>
    intro nested l st
    exact ⟨rfl, le_max_left _ _, fun h => h⟩
  | succ fuel ih =>
    intro nested l st
    cases l with
    | nil => exact ⟨rfl, le_max_left _ _, fun h => h⟩
    | cons e rest =>
      obtain ⟨name, node⟩ := e
      rw [goListF]
      by_cases h : st.limit ≤ st.count
      · rw [if_pos h]
        exact ⟨rfl, le_max_left _ _, fun _ => rfl⟩
      · rw [if_neg h]
        push_neg at h
        dsimp only
        have hstep := entryStep_inv (goListF fuel nested) (fun l' st' => ih nested l' st')
          nested node { st with count := st.count + 1 }
        obtain ⟨hl1, hc1, ht1⟩ := hstep
        by_cases htr :
            (entryStep (goListF fuel nested) nested node
              { st with count := st.count + 1 }).2.2.truncated = true
        · rw [if_pos htr]
          refine ⟨hl1, ?_, fun _ => htr⟩
          simp only at hc1 hl1 ⊢
          omega
        · rw [if_neg htr]
          have hrest := ih nested rest
            (entryStep (goListF fuel nested) nested node { st with count := st.count + 1 }).2.2
          obtain ⟨hl2, hc2, ht2⟩ := hrest
          refine ⟨by rw [hl2, hl1], ?_, ?_⟩
          · simp only at hc1 hc2 hl1 hl2 ⊢
            omega
          · intro hst
            exact absurd (ht1 hst) htr

/-- Once the limit is reached, the loop adds no entries and counts nothing. -/
theorem goListF_stopped (fuel : Nat) (nested : Bool) (l : List (String × FSNode))
    (st : TraversalBudget) (h : st.limit ≤ st.count) :
    (goListF fuel nested l st).1 = [] ∧ (goListF fuel nested l st).2.count = st.count := by
  cases fuel with
  | zero => exact ⟨rfl, rfl⟩
  | succ fuel =>
    cases l with
    | nil => exact ⟨rfl, rfl⟩
    | cons e rest =>
      obtain ⟨name, node⟩ := e
      rw [goListF, if_pos h]
      exact ⟨rfl, rfl⟩

/-- **C6.** Throughout any enumeration the shared `TraversalBudget` respects
its limit: starting from any state with `count ≤ limit` the final count never
exceeds the limit (and the limit itself never changes); once the limit is
reached no further entries are produced or counted; truncation is monotone;
and concretely, `listTree` with `maxEntries = 2` over a directory of 5 files
returns `count == 2` and `truncated == true`. -/
theorem claim_C6_budget_never_exceeded :
    (∀ (fuel : Nat) (nested : Bool) (l : List (String × FSNode)) (st : TraversalBudget),
      st.count ≤ st.limit →
        (goListF fuel nested l st).2.count ≤ st.limit ∧
          (goListF fuel nested l st).2.limit = st.limit) ∧
    (∀ (fuel : Nat) (nested : Bool) (l : List (String × FSNode)) (st : TraversalBudget),
      st.limit ≤ st.count →
        (goListF fuel nested l st).1 = [] ∧ (goListF fuel nested l st).2.count = st.count) ∧
    (∀ (fuel : Nat) (nested : Bool) (l : List (String × FSNode)) (st : TraversalBudget),
      st.truncated = true → (goListF fuel nested l st).2.truncated = true) ∧
    (listTree 100 (some (.dir [("a", .file), ("b", .file), ("c", .file),
        ("d", .file), ("e", .file)])) "/d" false 2).map (fun o => (o.2.1, o.2.2))
      = .ok (2, true) := by
  refine ⟨?_, ?_, ?_, by decide⟩
  · intro fuel nested l st hcl
    obtain ⟨hl, hc, _⟩ := goListF_inv fuel nested l st
    exact ⟨by rw [← Nat.max_eq_right hcl]; exact hc, hl⟩
  · exact goListF_stopped
  · intro fuel nested l st ht
    exact (goListF_inv fuel nested l st).2.2 ht

/-- Witness for C6 at concrete states. -/
theorem claim_C6_witness :
    ((0 : Nat) ≤ 2 ∧
      (goListF 10 false [("a", FSNode.file), ("b", .file), ("c", .file)]
          ⟨0, 2, false⟩).2.count ≤ 2) ∧
    ((2 : Nat) ≤ 2 ∧
      (goListF 10 false [("a", FSNode.file)] ⟨2, 2, false⟩).1 = []) ∧
    ((goListF 10 false [("a", FSNode.file)] ⟨0, 2, true⟩).2.truncated = true) :=
  ⟨⟨by decide,
    (claim_C6_budget_never_exceeded.1 10 false
      [("a", FSNode.file), ("b", .file), ("c", .file)] ⟨0, 2, false⟩ (by decide)).1⟩,
   ⟨by decide,
    (claim_C6_budget_never_exceeded.2.1 10 false [("a", FSNode.file)] ⟨2, 2, false⟩
      (by decide)).1⟩,
   claim_C6_budget_never_exceeded.2.2.1 10 false [("a", FSNode.file)] ⟨0, 2, true⟩ rfl⟩

/-! ## Ordering of directory listings (for C7) -/

theorem charsLe_total : ∀ (x y : List Char), charsLe x y = true ∨ charsLe y x = true := by
  intro x
  induction x with
  | nil => intro y; left; rfl
  | cons a as ih =>
    intro y
    cases y with
    | nil => right; rfl
    | cons b bs =>
      simp only [charsLe, Bool.or_eq_true, Bool.and_eq_true, decide_eq_true_eq]
      by_cases hab : a = b
      · subst hab
        rcases ih bs with h | h
        · exact Or.inl (Or.inr ⟨rfl, h⟩)
        · exact Or.inr (Or.inr ⟨rfl, h⟩)
      · have hne : a.toNat ≠ b.toNat := by
          intro he
          exact hab (by rw [← Char.ofNat_toNat a, he, Char.ofNat_toNat])
        rcases Nat.lt_or_ge a.toNat b.toNat with h | h
        · exact Or.inl (Or.inl h)
        · exact Or.inr (Or.inl (lt_of_le_of_ne h (Ne.symm hne)))

theorem charsLe_trans : ∀ (x y z : List Char),
    charsLe x y = true → charsLe y z = true → charsLe x z = true := by
  intro x
  induction x with
  | nil => intro y z _ _; rfl
  | cons a as ih =>
    intro y z hxy hyz
    cases y with
    | nil => simp [charsLe] at hxy
    | cons b bs =>
      cases z with
      | nil => simp [charsLe] at hyz
      | cons c cs =>
        simp only [charsLe, Bool.or_eq_true, Bool.and_eq_true, decide_eq_true_eq]
          at hxy hyz ⊢
        rcases hxy with h₁ | ⟨he₁, h₁⟩
        · rcases hyz with h₂ | ⟨he₂, h₂⟩
          · exact Or.inl (Nat.lt_trans h₁ h₂)
          · subst he₂; exact Or.inl h₁
        · subst he₁
          rcases hyz with h₂ | ⟨he₂, h₂⟩
          · exact Or.inl h₂
          · subst he₂; exact Or.inr ⟨rfl, ih bs cs h₁ h₂⟩

instance : IsTotal DirectoryItem itemR := by
  constructor
  intro a b
  unfold itemR itemLEb
  by_cases hd : a.isDirectory = b.isDirectory
  · rw [if_pos hd, if_pos hd.symm]
    exact charsLe_total a.name.data b.name.data
  · rw [if_neg hd, if_neg (Ne.symm hd)]
    cases ha : a.isDirectory with
    | true => exact Or.inl rfl
    | false =>
      cases hb : b.isDirectory with
      | true => exact Or.inr rfl
      | false => exact absurd (ha.trans hb.symm) hd

instance : IsTrans DirectoryItem itemR := by
  constructor
  intro a b c hab hbc
  unfold itemR itemLEb at hab hbc ⊢
  by_cases hab' : a.isDirectory = b.isDirectory
  · by_cases hbc' : b.isDirectory = c.isDirectory
    · rw [if_pos hab'] at hab
      rw [if_pos hbc'] at hbc
      rw [if_pos (hab'.trans hbc')]
      exact charsLe_trans _ _ _ hab hbc
    · have hac : ¬ a.isDirectory = c.isDirectory := fun h => hbc' (hab' ▸ h)
      rw [if_neg hbc'] at hbc
      rw [if_neg hac, hab']
      exact hbc
  · rw [if_neg hab'] at hab
    have hb : b.isDirectory = false := by
      cases hbv : b.isDirectory
      · rfl
      · exact absurd (hab.trans hbv.symm) hab'
    by_cases hbc' : b.isDirectory = c.isDirectory
    · have hc : c.isDirectory = false := hbc' ▸ hb
      have hac : ¬ a.isDirectory = c.isDirectory := by
        rw [hab, hc]; simp
      rw [if_neg hac]
      exact hab
    · rw [if_neg hbc'] at hbc
      rw [hb] at hbc
      exact absurd hbc (by simp)

/-- Adjacent-pair ordering check for one directory level. -/
def chainLE : List DirectoryItem → Bool
  | [] => true
  | [_] => true
  | a :: b :: rest => itemLEb a b && chainLE (b :: rest)

/-- Every level of a `DirectoryItem` forest is ordered by the comparator:
the level itself passes `chainLE` and all children levels recursively do. -/
inductive LevelsSorted : List DirectoryItem → Prop where
  | mk : ∀ (l : List DirectoryItem), chainLE l = true →
      (∀ i ∈ l, ∀ c, DirectoryItem.children i = some c → LevelsSorted c) →
      LevelsSorted l

theorem chainLE_of_sorted : ∀ (l : List DirectoryItem), List.Sorted itemR l → chainLE l = true := by
  intro l
  induction l with
  | nil => intro _; rfl
  | cons a l ih =>
    intro hs
    rw [List.sorted_cons] at hs
    cases l with
    | nil => rfl
    | cons b rest =>
      have hab : itemLEb a b = true := hs.1 b (List.mem_cons_self b rest)
      rw [chainLE, hab, ih hs.2, Bool.and_self]

theorem LevelsSorted_sortItems (L : List DirectoryItem)
    (h : ∀ i ∈ L, ∀ c, DirectoryItem.children i = some c → LevelsSorted c) :
    LevelsSorted (sortItems L) := by
  refine LevelsSorted.mk _ (chainLE_of_sorted _ (List.sorted_insertionSort itemR L)) ?_
  intro i hi
  exact h i ((List.perm_insertionSort itemR L).mem_iff.mp hi)

theorem entryStep_children
    (recCall : List (String × FSNode) → TraversalBudget → List DirectoryItem × TraversalBudget)
    (hrec : ∀ l st, ∀ i ∈ (recCall l st).1, ∀ c, DirectoryItem.children i = some c →
      LevelsSorted c)
    (nested : Bool) (node : FSNode) (st1 : TraversalBudget) :
    ∀ c, (entryStep recCall nested node st1).1 = some c → LevelsSorted c := by
  intro c hc
  unfold entryStep at hc
  by_cases hd : node.isDirectory = true ∧ nested = true
  · rw [if_pos hd] at hc
    cases node with
    | file => cases hc
    | badDir msg =>
      dsimp only at hc
      by_cases hpre : st1.truncated = true ∨ st1.limit ≤ st1.count
      · rw [if_pos hpre] at hc
        cases hc
        exact LevelsSorted.mk [] rfl (by intro i hi; cases hi)
      · rw [if_neg hpre] at hc
        cases hc
    | dir entries =>
      dsimp only at hc
      by_cases hpre : st1.truncated = true ∨ st1.limit ≤ st1.count
      · rw [if_pos hpre] at hc
        cases hc
        exact LevelsSorted.mk [] rfl (by intro i hi; cases hi)
      · rw [if_neg hpre] at hc
        cases hc
        exact LevelsSorted_sortItems _ (hrec entries st1)
  · rw [if_neg hd] at hc
    cases hc

theorem goListF_childrenSorted :
    ∀ (fuel : Nat) (nested : Bool) (l : List (String × FSNode)) (st : TraversalBudget),
      ∀ i ∈ (goListF fuel nested l st).1, ∀ c, DirectoryItem.children i = some c →
        LevelsSorted c := by
  intro fuel
  induction fuel with
  | zero => intro nested l st i hi; cases hi
  | succ fuel ih =>
    intro nested l st i hi
    cases l with
    | nil => cases hi
    | cons e rest =>
      obtain ⟨name, node⟩ := e
      rw [goListF] at hi
      by_cases h : st.limit ≤ st.count
      · rw [if_pos h] at hi; cases hi
      · rw [if_neg h] at hi
        dsimp only at hi
        by_cases htr :
            (entryStep (goListF fuel nested) nested node
              { st with count := st.count + 1 }).2.2.truncated = true
        · rw [if_pos htr] at hi
          rcases List.mem_singleton.mp hi with rfl
          intro c hc
          exact entryStep_children (goListF fuel nested) (fun l' st' => ih nested l' st')
            nested node { st with count := st.count + 1 } c hc
        · rw [if_neg htr] at hi
          rcases List.mem_cons.mp hi with rfl | hmem
          · intro c hc
            exact entryStep_children (goListF fuel nested) (fun l' st' => ih nested l' st')
              nested node { st with count := st.count + 1 } c hc
          · exact ih nested rest _ i hmem

/-- **C7.** Every directory level returned by `listTree` is ordered with
directories before files and, within each group, alphabetically by name —
recursively at every level; concretely, entries `["b.txt", "a.txt", "subdir"]`
(`subdir` a directory) come back as `["subdir", "a.txt", "b.txt"]`. -/
theorem claim_C7_listing_order :
    (∀ (fuel : Nat) (root : Option FSNode) (dirPath : String) (nested : Bool)
       (maxEntries : Nat) (items : List DirectoryItem) (cnt : Nat) (tr : Bool),
      listTree fuel root dirPath nested maxEntries = .ok (items, cnt, tr) →
        LevelsSorted items) ∧
    (listTree 100 (some (.dir [("b.txt", .file), ("a.txt", .file), ("subdir", .dir [])]))
        "/d" false 50).map (fun o => (itemNames o.1, o.2))
      = .ok (["subdir", "a.txt", "b.txt"], 3, false) := by
  refine ⟨?_, by decide⟩
  intro fuel root dirPath nested maxEntries items cnt tr h
  unfold listTree readDirectoryRecursiveM at h
  by_cases hpre : (false = true ∨ maxEntries ≤ 0)
  · rw [if_pos hpre] at h
    dsimp only at h
    cases h
    exact LevelsSorted.mk [] rfl (by intro i hi; cases hi)
  · rw [if_neg hpre] at h
    cases root with
    | none => cases h
    | some node =>
      cases node with
      | file => cases h
      | badDir msg => cases h
      | dir entries =>
        dsimp only at h
        cases h
        exact LevelsSorted_sortItems _
          (goListF_childrenSorted fuel nested entries _)

/-- Witness for C7: the general part applied to the concrete example. -/
theorem claim_C7_witness :
    ∃ items cnt tr,
      listTree 100 (some (.dir [("b.txt", FSNode.file), ("a.txt", .file),
          ("subdir", .dir [])])) "/d" false 50 = .ok (items, cnt, tr) ∧
        LevelsSorted items := by
  refine ⟨_, _, _, rfl, ?_⟩
  exact claim_C7_listing_order.1 100
    (some (.dir [("b.txt", FSNode.file), ("a.txt", .file), ("subdir", .dir [])]))
    "/d" false 50 _ _ _ rfl

/-- A nested `badDir` read with budget available is caught: no children, the
error message recorded, the budget unchanged. -/
theorem entryStep_badDir
    (recCall : List (String × FSNode) → TraversalBudget → List DirectoryItem × TraversalBudget)
    (msg : String) (st1 : TraversalBudget) (h1 : st1.truncated = false)
    (h2 : st1.count < st1.limit) :
    entryStep recCall true (.badDir msg) st1 =
      (none, some ("Failed to read directory: " ++ msg), st1) := by
  unfold entryStep
  rw [if_pos (show (FSNode.badDir msg).isDirectory = true ∧ true = true from ⟨rfl, rfl⟩)]
  dsimp only
  rw [if_neg (by rw [h1]; simp only [Bool.false_eq_true, false_or]; omega)]

/-- **C9.** Read-failure semantics of `listTree`: a missing root fails the
whole call with `NOT_FOUND`, a non-directory root with `VALIDATION_ERROR`;
a failing nested directory read is caught — the error string is recorded on
that directory's `DirectoryItem`, its children are omitted, and the loop
continues with the remaining sibling entries. -/
theorem claim_C9_read_failure_semantics :
    (∀ (fuel : Nat) (dirPath : String) (nested : Bool) (maxEntries : Nat),
      1 ≤ maxEntries →
        listTree fuel none dirPath nested maxEntries =
          .error { code := .NOT_FOUND,
                   message := "Directory not found at path: " ++ dirPath }) ∧
    (∀ (fuel : Nat) (dirPath : String) (nested : Bool) (maxEntries : Nat),
      1 ≤ maxEntries →
        listTree fuel (some .file) dirPath nested maxEntries =
          .error { code := .VALIDATION_ERROR,
                   message := "Path is not a directory: " ++ dirPath }) ∧
    (∀ (fuel : Nat) (name msg : String) (rest : List (String × FSNode))
       (st : TraversalBudget),
      st.truncated = false → st.count + 1 < st.limit →
        goListF (fuel + 1) true ((name, .badDir msg) :: rest) st =
          (DirectoryItem.mk name true none
              (some ("Failed to read directory: " ++ msg)) ::
              (goListF fuel true rest { st with count := st.count + 1 }).1,
            (goListF fuel true rest { st with count := st.count + 1 }).2)) := by
  refine ⟨?_, ?_, ?_⟩
  · intro fuel dirPath nested maxEntries hmax
    unfold listTree readDirectoryRecursiveM
    rw [if_neg (by simp; omega)]
  · intro fuel dirPath nested maxEntries hmax
    unfold listTree readDirectoryRecursiveM
    rw [if_neg (by simp; omega)]
  · intro fuel name msg rest st htr hcnt
    rw [goListF]
    rw [if_neg (by omega)]
    dsimp only
    rw [entryStep_badDir (goListF fuel true) msg { st with count := st.count + 1 } htr hcnt]
    rw [if_neg (show ¬ (({ st with count := st.count + 1 } : TraversalBudget).truncated
        = true) by rw [show ({ st with count := st.count + 1 } :
          TraversalBudget).truncated = false from htr]; simp)]
    rfl

/-- Witness for C9 at concrete inputs (fuel 5, budget 50). -/
theorem claim_C9_witness :
    ((1 : Nat) ≤ 50 ∧
      listTree 5 none "/d" true 50 =
        .error { code := .NOT_FOUND, message := "Directory not found at path: /d" }) ∧
    ((1 : Nat) ≤ 50 ∧
      listTree 5 (some .file) "/d" true 50 =
        .error { code := .VALIDATION_ERROR, message := "Path is not a directory: /d" }) ∧
    goListF 5 true [("bad", FSNode.badDir "EACCES"), ("ok.txt", FSNode.file)]
        ⟨0, 50, false⟩ =
      (DirectoryItem.mk "bad" true none (some "Failed to read directory: EACCES") ::
          (goListF 4 true [("ok.txt", FSNode.file)] ⟨1, 50, false⟩).1,
        (goListF 4 true [("ok.txt", FSNode.file)] ⟨1, 50, false⟩).2) :=
  ⟨⟨by decide, claim_C9_read_failure_semantics.1 5 "/d" true 50 (by decide)⟩,
   ⟨by decide, claim_C9_read_failure_semantics.2.1 5 "/d" true 50 (by decide)⟩,
   claim_C9_read_failure_semantics.2.2 4 "bad" "EACCES" [("ok.txt", FSNode.file)]
     ⟨0, 50, false⟩ rfl (by decide)⟩

/-- **C8 (counterexample).** The claim's triple-form rule does not hold for
every pattern: for the star-containing pattern `"*.js"` and entry
`"nested/deep.js"`, the triple form (`**/*.js`) matches, but the code tests a
star-containing pattern only as-is and does not exclude the entry; in the
recursive listing with exclude `["*.js"]`, the nested `.js` files remain. -/
theorem claim_C8_counterexample :
    shouldExcludePat "nested/deep.js" "*.js" = false ∧
      excludedTripleSpec "nested/deep.js" "*.js" = true ∧
      shouldExclude ["*.js"] "nested/deep.js" = false ∧
      (buildTreeM 100 demoFS "" ["*.js"]).map (fun f =>
        (hasPath f ["src", "index.js"], hasPath f ["nested", "node_modules", "deep.js"]))
        = .ok (true, true) := by
  refine ⟨by decide, by decide, by decide, by decide⟩

/-- **C8 (amended).** An entry is excluded iff its root-relative path matches
some exclude pattern, where a pattern containing `*` is tested as an exact
glob only, and a pattern without `*` is tested as an exact glob, as
`**/pattern`, or as `**/pattern/**`.  Consequently the single pattern
`"node_modules"` excludes both a top-level and a nested `node_modules`
directory, while pattern `".env"` does not exclude `".env.local"`. -/
theorem claim_C8_exclusion_matcher :
    (∀ (relativePath pattern : String),
      shouldExcludePat relativePath pattern =
        (if pattern.data.any (fun c => c = '*') then minimatchM relativePath pattern
         else excludedTripleSpec relativePath pattern)) ∧
    shouldExcludePat "node_modules" "node_modules" = true ∧
    shouldExcludePat "nested/node_modules" "node_modules" = true ∧
    shouldExcludePat ".env.local" ".env" = false ∧
    (buildTreeM 100 demoFS "" ["node_modules"]).map (fun f =>
      (hasPath f ["node_modules"], hasPath f ["nested", "node_modules"],
        hasPath f ["nested"], hasPath f ["src", "index.js"])) = .ok (false, false, true, true) ∧
    (buildTreeM 100 demoFS "" [".env"]).map (fun f =>
      (hasPath f [".env"], hasPath f [".env.local"])) = .ok (false, true) := by
  refine ⟨?_, by decide, by decide, by decide, by decide, by decide⟩
  intro relativePath pattern
  unfold shouldExcludePat excludedTripleSpec
  rfl

/-! ## Lemmas toward idempotence of `sanitizePath` (for C4) -/

namespace PathCore

theorem splitSl_append : ∀ (a b : List Char), splitSl (a ++ '/' :: b) = splitSl a ++ splitSl b := by
  intro a b
  induction a with
  | nil => simp [splitSl]
  | cons c a ih =>
    by_cases hc : c = '/'
    · subst hc
      show splitSl ('/' :: (a ++ '/' :: b)) = splitSl ('/' :: a) ++ splitSl b
      rw [splitSl, if_pos rfl, ih, splitSl, if_pos rfl]
      rfl
    · show splitSl (c :: (a ++ '/' :: b)) = splitSl (c :: a) ++ splitSl b
      rw [splitSl, if_neg hc, ih, splitSl, if_neg hc]
      cases hsp : splitSl a with
      | nil => exact absurd hsp (splitSl_ne_nil a)
      | cons s ss => rfl

theorem splitSl_no_slash_eq : ∀ (s : List Char), '/' ∉ s → splitSl s = [s] := by
  intro s
  induction s with
  | nil => intro _; rfl
  | cons c r ih =>
    intro h
    have hc : c ≠ '/' := fun hcc => h (hcc ▸ List.mem_cons_self c r)
    rw [splitSl, if_neg hc, ih (fun hm => h (List.mem_cons_of_mem c hm))]

theorem splitSl_interSegs : ∀ (L : List Seg), L ≠ [] → (∀ s ∈ L, '/' ∉ s) →
    splitSl (interSegs L) = L := by
  intro L
  induction L with
  | nil => intro h; exact absurd rfl h
  | cons s t ih =>
    intro _ hfree
    cases t with
    | nil => exact splitSl_no_slash_eq s (hfree s (List.mem_cons_self s []))
    | cons s' t' =>
      rw [show interSegs (s :: s' :: t') = s ++ '/' :: interSegs (s' :: t') from rfl]
      rw [splitSl_append, splitSl_no_slash_eq s (hfree s (List.mem_cons_self s _)),
        ih (by simp) (fun u hu => hfree u (List.mem_cons_of_mem s hu))]
      rfl

theorem interSegs_ne_nil : ∀ (s : Seg) (t : List Seg), s ≠ [] → interSegs (s :: t) ≠ [] := by
  intro s t hs
  cases t with
  | nil => exact hs
  | cons s' t' =>
    rw [show interSegs (s :: s' :: t') = s ++ '/' :: interSegs (s' :: t') from rfl]
    simp

theorem getLast?_interSegs : ∀ (L : List Seg), (∀ s ∈ L, s ≠ [] ∧ '/' ∉ s) → L ≠ [] →
    ∀ c, (interSegs L).getLast? = some c → c ≠ '/' := by
  intro L
  induction L with
  | nil => intro _ h; exact absurd rfl h
  | cons s t ih =>
    intro h _ c hg
    cases t with
    | nil =>
      obtain ⟨hne, hfree⟩ := h s (List.mem_cons_self s [])
      exact fun hcc => hfree (hcc ▸ List.mem_of_mem_getLast? hg)
    | cons s' t' =>
      obtain ⟨hs'ne, _⟩ := h s' (List.mem_cons_of_mem s (List.mem_cons_self s' t'))
      rw [show interSegs (s :: s' :: t') = s ++ '/' :: interSegs (s' :: t') from rfl,
        List.getLast?_append_of_ne_nil _ (List.cons_ne_nil '/' _),
        show ('/' :: interSegs (s' :: t')) = ['/'] ++ interSegs (s' :: t') from rfl,
        List.getLast?_append_of_ne_nil _ (interSegs_ne_nil s' t' hs'ne)] at hg
      exact ih (fun u hu => h u (List.mem_cons_of_mem s hu)) (by simp) c hg

theorem trailingSl_interSegs : ∀ (L : List Seg), (∀ s ∈ L, s ≠ [] ∧ '/' ∉ s) → L ≠ [] →
    trailingSl (interSegs L) = false := by
  intro L h hne
  unfold trailingSl
  cases hg : (interSegs L).getLast? with
  | none => rfl
  | some c => simp [getLast?_interSegs L h hne c hg]

theorem isPrefixOf_exists : ∀ (p l : List Char), p.isPrefixOf l = true → ∃ t, l = p ++ t := by
  intro p
  induction p with
  | nil => intro l _; exact ⟨l, rfl⟩
  | cons a p ih =>
    intro l h
    cases l with
    | nil => simp [List.isPrefixOf] at h
    | cons b l' =>
      rw [List.isPrefixOf, Bool.and_eq_true, beq_iff_eq] at h
      obtain ⟨t, ht⟩ := ih l' h.2
      exact ⟨t, by rw [ht, h.1]; rfl⟩

theorem dropCommon_append : ∀ (l r : List Seg), dropCommon l (l ++ r) = ([], r) := by
  intro l r
  induction l with
  | nil =>
    cases r with
    | nil => rfl
    | cons s t => rfl
  | cons a l ih =>
    rw [show (a :: l) ++ r = a :: (l ++ r) from rfl, dropCommon, if_pos rfl, ih]

end PathCore

namespace PathCore

theorem pushSeg_mem (allow : Bool) (acc : List Seg) (s : Seg) :
    ∀ a ∈ pushSeg allow acc s,
      a ∈ acc ∨ a = ['.', '.'] ∨ (a = s ∧ ¬ (s = [] ∨ s = ['.']) ∧ s ≠ ['.', '.']) := by
  intro a ha
  unfold pushSeg at ha
  by_cases hskip : s = [] ∨ s = ['.']
  · rw [if_pos hskip] at ha
    exact Or.inl ha
  · rw [if_neg hskip] at ha
    by_cases hdd : s = ['.', '.']
    · rw [if_pos hdd] at ha
      cases acc with
      | nil =>
        dsimp only at ha
        cases allow with
        | true => simp at ha; exact Or.inr (Or.inl (ha ▸ hdd))
        | false => simp at ha
      | cons b rest =>
        dsimp only at ha
        by_cases hb : b = ['.', '.']
        · rw [if_pos hb] at ha
          cases allow with
          | true =>
            rcases List.mem_cons.mp ha with h | h
            · exact Or.inr (Or.inl (h.trans hdd))
            · exact Or.inl h
          | false => exact Or.inl ha
        · rw [if_neg hb] at ha
          exact Or.inl (List.mem_cons_of_mem b ha)
    · rw [if_neg hdd] at ha
      rcases List.mem_cons.mp ha with h | h
      · exact Or.inr (Or.inr ⟨h, hskip, hdd⟩)
      · exact Or.inl h

theorem runSegs_mem (allow : Bool) :
    ∀ (l : List Seg) (acc : List Seg), ∀ a ∈ runSegs allow acc l,
      a ∈ acc ∨ a = ['.', '.'] ∨ (a ∈ l ∧ ¬ (a = [] ∨ a = ['.']) ∧ a ≠ ['.', '.']) := by
  intro l
  induction l with
  | nil => intro acc a ha; exact Or.inl ha
  | cons s t ih =>
    intro acc a ha
    rw [show runSegs allow acc (s :: t) = runSegs allow (pushSeg allow acc s) t from rfl] at ha
    rcases ih (pushSeg allow acc s) a ha with h | h | ⟨hm, hp⟩
    · rcases pushSeg_mem allow acc s a h with h' | h' | ⟨he, hp'⟩
      · exact Or.inl h'
      · exact Or.inr (Or.inl h')
      · exact Or.inr (Or.inr ⟨he ▸ List.mem_cons_self s t, he ▸ hp'.1, he ▸ hp'.2⟩)
    · exact Or.inr (Or.inl h)
    · exact Or.inr (Or.inr ⟨List.mem_cons_of_mem s hm, hp⟩)

theorem runSegs_noDD :
    ∀ (l : List Seg) (acc : List Seg), ['.', '.'] ∉ acc →
      ['.', '.'] ∉ runSegs false acc l := by
  intro l
  induction l with
  | nil => intro acc h; exact h
  | cons s t ih =>
    intro acc h
    rw [show runSegs false acc (s :: t) = runSegs false (pushSeg false acc s) t from rfl]
    refine ih _ ?_
    unfold pushSeg
    by_cases hskip : s = [] ∨ s = ['.']
    · rw [if_pos hskip]; exact h
    · rw [if_neg hskip]
      by_cases hdd : s = ['.', '.']
      · rw [if_pos hdd]
        cases acc with
        | nil => dsimp only; simp
        | cons b rest =>
          dsimp only
          have hb : ¬ (b = ['.', '.']) := fun hb' => h (hb' ▸ List.mem_cons_self b rest)
          rw [if_neg hb]
          exact fun hm => h (List.mem_cons_of_mem b hm)
      · rw [if_neg hdd]
        intro hm
        rcases List.mem_cons.mp hm with h' | h'
        · exact hdd h'.symm
        · exact h h'

theorem runSegs_clean (allow : Bool) :
    ∀ (l : List Seg) (acc : List Seg),
      (∀ s ∈ l, ¬ (s = [] ∨ s = ['.']) ∧ s ≠ ['.', '.']) →
      runSegs allow acc l = l.reverse ++ acc := by
  intro l
  induction l with
  | nil => intro acc _; rfl
  | cons s t ih =>
    intro acc h
    obtain ⟨hskip, hdd⟩ := h s (List.mem_cons_self s t)
    rw [show runSegs allow acc (s :: t) = runSegs allow (pushSeg allow acc s) t from rfl]
    rw [show pushSeg allow acc s = s :: acc from by
      unfold pushSeg; rw [if_neg hskip, if_neg hdd]]
    rw [ih (s :: acc) (fun u hu => h u (List.mem_cons_of_mem s hu))]
    simp

theorem runSegs_replicate_dd :
    ∀ (k : Nat) (acc : List Seg), (∀ a ∈ acc, a = ['.', '.']) →
      runSegs true acc (List.replicate k ['.', '.']) = List.replicate k ['.', '.'] ++ acc := by
  intro k
  induction k with
  | zero => intro acc _; rfl
  | succ k ih =>
    intro acc h
    rw [List.replicate_succ]
    rw [show runSegs true acc (['.', '.'] :: List.replicate k ['.', '.'])
      = runSegs true (pushSeg true acc ['.', '.']) (List.replicate k ['.', '.']) from rfl]
    have hpush : pushSeg true acc ['.', '.'] = ['.', '.'] :: acc := by
      unfold pushSeg
      rw [if_neg (by simp), if_pos rfl]
      cases acc with
      | nil => rfl
      | cons b rest =>
        dsimp only
        rw [if_pos (h b (List.mem_cons_self b rest)), if_pos rfl]
    rw [hpush, ih (['.', '.'] :: acc)
      (fun a ha => by rcases List.mem_cons.mp ha with h' | h'; exact h'; exact h a h')]
    rw [List.append_cons, ← List.replicate_succ', List.replicate_succ, List.cons_append]

theorem runSegs_true_shape :
    ∀ (l : List Seg) (acc : List Seg),
      (∃ c d, acc = c ++ d ∧ ['.', '.'] ∉ c ∧ ∀ a ∈ d, a = ['.', '.']) →
      ∃ c d, runSegs true acc l = c ++ d ∧ ['.', '.'] ∉ c ∧ ∀ a ∈ d, a = ['.', '.'] := by
  intro l
  induction l with
  | nil => intro acc h; exact h
  | cons s t ih =>
    intro acc h
    rw [show runSegs true acc (s :: t) = runSegs true (pushSeg true acc s) t from rfl]
    refine ih _ ?_
    obtain ⟨c, d, hacc, hc, hd⟩ := h
    unfold pushSeg
    by_cases hskip : s = [] ∨ s = ['.']
    · rw [if_pos hskip]; exact ⟨c, d, hacc, hc, hd⟩
    · rw [if_neg hskip]
      by_cases hdd : s = ['.', '.']
      · rw [if_pos hdd]
        cases hacc' : acc with
        | nil =>
          exact ⟨[], [s], rfl, by simp,
            by intro a ha; simpa using (List.mem_singleton.mp ha).trans hdd⟩
        | cons b rest =>
          dsimp only
          by_cases hb : b = ['.', '.']
          · rw [if_pos hb, if_pos rfl]
            have hcnil : c = [] := by
              cases hcc : c with
              | nil => rfl
              | cons x c' =>
                exfalso
                rw [hacc', hcc, List.cons_append] at hacc
                have hbx : b = x := (List.cons.inj hacc).1
                have hxdd : x = ['.', '.'] := hbx.symm.trans hb
                exact hc (by rw [hcc]; exact List.mem_cons.mpr (Or.inl hxdd.symm))
            refine ⟨[], s :: acc, by rw [hacc']; rfl, by simp, ?_⟩
            intro a ha
            rcases List.mem_cons.mp ha with h' | h'
            · exact h'.trans hdd
            · refine hd a ?_
              rw [hacc, hcnil] at h'
              simpa using h'
          · rw [if_neg hb]
            cases hcc : c with
            | nil =>
              exfalso
              rw [hacc', hcc] at hacc
              simp only [List.nil_append] at hacc
              exact hb (hd b (hacc ▸ List.mem_cons_self b rest))
            | cons x c' =>
              rw [hacc', hcc, List.cons_append] at hacc
              have hrest : rest = c' ++ d := (List.cons.inj hacc).2
              exact ⟨c', d, hrest, fun hm => hc (hcc ▸ List.mem_cons_of_mem x hm), hd⟩
      · rw [if_neg hdd]
        exact ⟨s :: c, d, by rw [hacc]; rfl, by
          intro hm
          rcases List.mem_cons.mp hm with h' | h'
          · exact hdd h'.symm
          · exact hc h', hd⟩

end PathCore

namespace PathCore

/-- The output of `normalizeString` with `allowAboveRoot` is a run of `..`
segments followed by a `..`-free remainder. -/
theorem normSegs_shape_true (l : List Seg) :
    ∃ k m, normSegs true l = List.replicate k ['.', '.'] ++ m ∧ ['.', '.'] ∉ m := by
  obtain ⟨c, d, hrun, hc, hd⟩ := runSegs_true_shape l [] ⟨[], [], rfl, by simp, by simp⟩
  refine ⟨d.length, c.reverse, ?_, by simpa using hc⟩
  rw [normSegs, hrun, List.reverse_append]
  congr 1
  rw [show d.length = d.reverse.length from (List.length_reverse d).symm]
  exact List.eq_replicate_length.mpr (fun b hb => hd b (List.mem_reverse.mp hb))

theorem normSegs_mem (allow : Bool) (l : List Seg) :
    ∀ a ∈ normSegs allow l,
      a = ['.', '.'] ∨ (a ∈ l ∧ ¬ (a = [] ∨ a = ['.']) ∧ a ≠ ['.', '.']) := by
  intro a ha
  rcases runSegs_mem allow l [] a (List.mem_reverse.mp ha) with h | h | h
  · cases h
  · exact Or.inl h
  · exact Or.inr h

theorem normSegs_false_noDD (l : List Seg) : ['.', '.'] ∉ normSegs false l := by
  intro h
  exact runSegs_noDD l [] (by simp) (List.mem_reverse.mp h)

/-- Fixed point: a `..`-prefixed clean segment list is unchanged by
`normalizeString` with `allowAboveRoot`. -/
theorem normSegs_fixed_true (k : Nat) (m : List Seg)
    (hm : ∀ s ∈ m, ¬ (s = [] ∨ s = ['.']) ∧ s ≠ ['.', '.']) :
    normSegs true (List.replicate k ['.', '.'] ++ m) = List.replicate k ['.', '.'] ++ m := by
  rw [normSegs, runSegs, List.foldl_append, ← runSegs, ← runSegs,
    runSegs_replicate_dd k [] (by simp), List.append_nil, runSegs_clean true m _ hm,
    List.reverse_append, List.reverse_reverse, List.reverse_replicate]

theorem normSegs_fixed (allow : Bool) (m : List Seg)
    (hm : ∀ s ∈ m, ¬ (s = [] ∨ s = ['.']) ∧ s ≠ ['.', '.']) :
    normSegs allow m = m := by
  rw [normSegs, runSegs_clean allow m [] hm, List.append_nil, List.reverse_reverse]

/-- The canonical clean segments of a resolved absolute path. -/
def cleanOf (w : List Char) : List Seg := normSegs false (splitSl w)

theorem cleanOf_props (w : List Char) :
    ∀ a ∈ cleanOf w, (¬ (a = [] ∨ a = ['.']) ∧ a ≠ ['.', '.']) ∧ '/' ∉ a := by
  intro a ha
  rcases normSegs_mem false (splitSl w) a ha with h | ⟨hmem, hp⟩
  · exact absurd (h ▸ ha) (normSegs_false_noDD (splitSl w))
  · exact ⟨⟨hp.1, hp.2⟩, split_no_slash w a hmem⟩

theorem normAbsChars_data (w : List Char) :
    (normAbsChars w).data = '/' :: interSegs (cleanOf w) := rfl

theorem isAbsolute_normAbsChars (w : List Char) : isAbsolute (normAbsChars w) = true := by
  rw [isAbsolute, normAbsChars_data]
  simp [isAbsoluteL]

theorem splitSl_normAbs (w : List Char) :
    splitSl (normAbsChars w).data =
      [] :: (if cleanOf w = [] then [[]] else cleanOf w) := by
  rw [normAbsChars_data, splitSl, if_pos rfl]
  by_cases hc : cleanOf w = []
  · rw [if_pos hc, hc]
    rfl
  · rw [if_neg hc, splitSl_interSegs (cleanOf w) hc (fun s hs => (cleanOf_props w s hs).2)]

theorem cleanSegsOf_normAbs (w : List Char) : cleanSegsOf (normAbsChars w) = cleanOf w := by
  rw [cleanSegsOf, splitSl_normAbs]
  by_cases hc : cleanOf w = []
  · rw [if_pos hc, hc]
    rfl
  · rw [if_neg hc]
    rw [List.filter, decide_eq_false_iff_not.mpr (by simp), List.filter_eq_self.mpr]
    intro a ha
    exact decide_eq_true_eq.mpr (fun h => ((cleanOf_props w a ha).1.1 (Or.inl h)))

theorem cleanOf_normAbs (w : List Char) : cleanOf (normAbsChars w).data = cleanOf w := by
  rw [cleanOf, splitSl_normAbs]
  by_cases hc : cleanOf w = []
  · rw [if_pos hc, hc]
    rfl
  · rw [if_neg hc]
    rw [show normSegs false ([] :: cleanOf w) = normSegs false (cleanOf w) from by
      rw [normSegs, normSegs, runSegs, runSegs, List.foldl_cons]
      rfl]
    exact normSegs_fixed false (cleanOf w) (fun s hs => (cleanOf_props w s hs).1)

theorem normAbs_idem (w : List Char) :
    normAbsChars (normAbsChars w).data = normAbsChars w := by
  rw [normAbsChars, ← cleanOf, cleanOf_normAbs]
  rfl

theorem resolve1_normAbs (cwd : String) (w : List Char) :
    resolve1 cwd (normAbsChars w) = normAbsChars w := by
  rw [resolve1, if_pos (isAbsolute_normAbsChars w), normAbs_idem]

end PathCore

namespace PathCore

theorem pushSeg_nilseg (allow : Bool) (acc : List Seg) : pushSeg allow acc [] = acc := by
  unfold pushSeg
  rw [if_pos (Or.inl rfl)]

theorem runSegs_cons_nilseg (allow : Bool) (acc : List Seg) (l : List Seg) :
    runSegs allow acc ([] :: l) = runSegs allow acc l := by
  rw [runSegs, List.foldl_cons, pushSeg_nilseg]
  rfl

theorem runSegs_append_nilseg (allow : Bool) (acc : List Seg) (l : List Seg) :
    runSegs allow acc (l ++ [[]]) = runSegs allow acc l := by
  rw [runSegs, List.foldl_append, List.foldl_cons, pushSeg_nilseg, List.foldl_nil]
  rfl

theorem isAbsoluteL_append (l r : List Char) (h : l ≠ []) :
    isAbsoluteL (l ++ r) = isAbsoluteL l := by
  cases l with
  | nil => exact absurd rfl h
  | cons c rest => rfl

theorem trailingSl_append_slash (y : List Char) : trailingSl (y ++ ['/']) = true := by
  unfold trailingSl
  rw [List.getLast?_append_of_ne_nil _ (by simp : ['/'] ≠ [])]
  rfl

theorem trailingSl_cons_slash (p : List Char) (hp : p ≠ []) :
    trailingSl ('/' :: p) = trailingSl p := by
  unfold trailingSl
  rw [show ('/' :: p) = ['/'] ++ p from rfl, List.getLast?_append_of_ne_nil _ hp]

theorem if_true_eq {α : Sort u} (x y : α) : (if true = true then x else y) = x := if_pos rfl

theorem if_false_eq {α : Sort u} (x y : α) : (if false = true then x else y) = y :=
  if_neg (by simp)

/-- Fixed point of `path.normalize`: a path assembled from non-empty,
slash-free segments that `normalizeString` leaves unchanged (with the
matching absolute flag and optional trailing separator) normalizes to
itself. -/
theorem normalize_fixpoint (abs trailing : Bool) (ns : List Seg)
    (hne : ns ≠ [])
    (hprops : ∀ a ∈ ns, a ≠ [] ∧ a ≠ ['.'] ∧ '/' ∉ a)
    (hfix : normSegs (!abs) ns = ns) :
    normalizeStr ⟨(if abs then '/' :: interSegs ns else interSegs ns) ++
      (if trailing then ['/'] else [])⟩ =
      ⟨(if abs then '/' :: interSegs ns else interSegs ns) ++
        (if trailing then ['/'] else [])⟩ := by
  obtain ⟨h0, t0, rfl⟩ : ∃ h0 t0, ns = h0 :: t0 := by
    cases ns with
    | nil => exact absurd rfl hne
    | cons a b => exact ⟨a, b, rfl⟩
  have hfree : ∀ s ∈ h0 :: t0, '/' ∉ s := fun s hs => (hprops s hs).2.2
  have hne2 : ∀ s ∈ h0 :: t0, s ≠ [] ∧ '/' ∉ s :=
    fun s hs => ⟨(hprops s hs).1, (hprops s hs).2.2⟩
  have hp_ne : interSegs (h0 :: t0) ≠ [] :=
    interSegs_ne_nil h0 t0 (hprops h0 (List.mem_cons_self h0 t0)).1
  have hpabs : isAbsoluteL (interSegs (h0 :: t0)) = false :=
    isAbsoluteL_interSegs _ hne2
  have hptrail : trailingSl (interSegs (h0 :: t0)) = false :=
    trailingSl_interSegs _ hne2 (by simp)
  have hsplit : splitSl (interSegs (h0 :: t0)) = h0 :: t0 :=
    splitSl_interSegs _ (by simp) hfree
  set P := interSegs (h0 :: t0) with hP
  have hdata_ne : (if abs then '/' :: P else P) ++ (if trailing then ['/'] else []) ≠ [] := by
    cases abs with
    | true => simp
    | false =>
      cases trailing with
      | true => simp
      | false => simpa using hp_ne
  rw [normalizeStr]
  rw [if_neg (by
    intro hcontra
    exact hdata_ne (congrArg String.data hcontra))]
  have habs' : isAbsoluteL ((if abs then '/' :: P else P) ++
      (if trailing then ['/'] else [])) = abs := by
    cases abs with
    | true => rfl
    | false =>
      cases trailing with
      | true =>
        simp only [eq_self_iff_true, if_true, Bool.false_eq_true, if_false]
        rw [isAbsoluteL_append P ['/'] hp_ne, hpabs]
      | false =>
        simp only [Bool.false_eq_true, if_false]
        rw [List.append_nil, hpabs]
  have htrail' : trailingSl ((if abs then '/' :: P else P) ++
      (if trailing then ['/'] else [])) = trailing := by
    cases trailing with
    | true =>
      cases abs with
      | true =>
        simp only [eq_self_iff_true, if_true]
        rw [trailingSl_append_slash]
      | false =>
        simp only [eq_self_iff_true, if_true, Bool.false_eq_true, if_false]
        rw [trailingSl_append_slash]
    | false =>
      cases abs with
      | true =>
        simp only [eq_self_iff_true, if_true, Bool.false_eq_true, if_false]
        rw [List.append_nil, trailingSl_cons_slash P hp_ne, hptrail]
      | false =>
        simp only [Bool.false_eq_true, if_false]
        rw [List.append_nil, hptrail]
  have hsegs' : splitSl ((if abs then '/' :: P else P) ++
      (if trailing then ['/'] else [])) =
      (if abs then [[]] else []) ++ (h0 :: t0) ++ (if trailing then [[]] else []) := by
    cases abs with
    | true =>
      cases trailing with
      | true =>
        simp only [eq_self_iff_true, if_true]
        rw [show ('/' :: P) ++ ['/'] = '/' :: (P ++ '/' :: []) from rfl]
        rw [splitSl, if_pos rfl, splitSl_append, hsplit]
        simp [splitSl]
      | false =>
        simp only [eq_self_iff_true, if_true, Bool.false_eq_true, if_false]
        rw [List.append_nil]
        rw [splitSl, if_pos rfl, hsplit]
        simp
    | false =>
      cases trailing with
      | true =>
        simp only [eq_self_iff_true, if_true, Bool.false_eq_true, if_false]
        rw [show P ++ ['/'] = P ++ '/' :: [] from rfl, splitSl_append, hsplit]
        simp [splitSl]
      | false =>
        simp only [Bool.false_eq_true, if_false]
        rw [List.append_nil, List.append_nil, hsplit]
        simp
  dsimp only
  rw [habs', htrail', hsegs']
  have hns' : normSegs (!abs) ((if abs then [[]] else []) ++ (h0 :: t0) ++
      (if trailing then [[]] else [])) = h0 :: t0 := by
    have step1 : runSegs (!abs) [] ((if abs then [[]] else []) ++ (h0 :: t0) ++
        (if trailing then [[]] else [])) = runSegs (!abs) [] (h0 :: t0) := by
      cases abs with
      | true =>
        cases trailing with
        | true =>
          simp only [eq_self_iff_true, if_true]
          rw [List.append_assoc,
            show ([[]] : List Seg) ++ ((h0 :: t0) ++ [[]]) = [] :: ((h0 :: t0) ++ [[]])
              from rfl,
            runSegs_cons_nilseg, runSegs_append_nilseg]
        | false =>
          simp only [eq_self_iff_true, if_true, Bool.false_eq_true, if_false]
          rw [List.append_nil,
            show ([[]] : List Seg) ++ (h0 :: t0) = [] :: (h0 :: t0) from rfl,
            runSegs_cons_nilseg]
      | false =>
        cases trailing with
        | true =>
          simp only [eq_self_iff_true, if_true, Bool.false_eq_true, if_false]
          rw [List.nil_append, runSegs_append_nilseg]
        | false =>
          simp only [Bool.false_eq_true, if_false]
          rw [List.nil_append, List.append_nil]
    rw [normSegs, step1, ← normSegs, hfix]
  rw [hns']
  rw [if_neg (by rw [← hP]; exact hp_ne)]

theorem normSegs_idem (allow : Bool) (l : List Seg) :
    normSegs allow (normSegs allow l) = normSegs allow l := by
  cases allow with
  | false =>
    refine normSegs_fixed false _ ?_
    intro a ha
    rcases normSegs_mem false l a ha with h | ⟨_, hp, hdd⟩
    · exact absurd (h ▸ ha) (normSegs_false_noDD l)
    · exact ⟨hp, hdd⟩
  | true =>
    obtain ⟨k, m, heq, hdd⟩ := normSegs_shape_true l
    rw [heq]
    refine normSegs_fixed_true k m ?_
    intro a ha
    have hmem : a ∈ normSegs true l := by
      rw [heq]; exact List.mem_append_right _ ha
    rcases normSegs_mem true l a hmem with h | ⟨_, hp, hd2⟩
    · exact absurd (h ▸ ha) hdd
    · exact ⟨hp, hd2⟩

/-- `path.normalize` is idempotent. -/
theorem normalize_idem (s : String) : normalizeStr (normalizeStr s) = normalizeStr s := by
  by_cases hs : s = ""
  · rw [hs]
    decide
  · have hinner : normalizeStr s =
        (if interSegs (normSegs (!isAbsoluteL s.data) (splitSl s.data)) = [] then
          (if isAbsoluteL s.data then "/" else if trailingSl s.data then "./" else ".")
        else
          ⟨(if isAbsoluteL s.data then
              '/' :: interSegs (normSegs (!isAbsoluteL s.data) (splitSl s.data))
            else interSegs (normSegs (!isAbsoluteL s.data) (splitSl s.data))) ++
            (if trailingSl s.data then ['/'] else [])⟩) := by
      rw [normalizeStr, if_neg hs]
    by_cases hp : interSegs (normSegs (!isAbsoluteL s.data) (splitSl s.data)) = []
    · rw [hinner, if_pos hp]
      by_cases hA : isAbsoluteL s.data = true
      · rw [if_pos hA]
        decide
      · rw [if_neg hA]
        by_cases hT : trailingSl s.data = true
        · rw [if_pos hT]
          decide
        · rw [if_neg hT]
          decide
    · rw [hinner, if_neg hp]
      have hne : normSegs (!isAbsoluteL s.data) (splitSl s.data) ≠ [] := by
        intro h
        exact hp (by rw [h]; rfl)
      have hprops : ∀ a ∈ normSegs (!isAbsoluteL s.data) (splitSl s.data),
          a ≠ [] ∧ a ≠ ['.'] ∧ '/' ∉ a := by
        intro a ha
        rcases normSegs_mem (!isAbsoluteL s.data) (splitSl s.data) a ha with h | ⟨hm, hp2, hdd⟩
        · rw [h]
          refine ⟨by simp, by simp, by decide⟩
        · exact ⟨fun h' => hp2 (Or.inl h'), fun h' => hp2 (Or.inr h'),
            split_no_slash s.data a hm⟩
      exact normalize_fixpoint (isAbsoluteL s.data) (trailingSl s.data)
        (normSegs (!isAbsoluteL s.data) (splitSl s.data)) hne hprops
        (normSegs_idem (!isAbsoluteL s.data) (splitSl s.data))

end PathCore

namespace PathCore

theorem resolve1_image (cwd p : String) : ∃ w, resolve1 cwd p = normAbsChars w := by
  unfold resolve1
  by_cases h : isAbsolute p = true
  · rw [if_pos h]; exact ⟨p.data, rfl⟩
  · rw [if_neg h]; exact ⟨cwd.data ++ '/' :: p.data, rfl⟩

theorem resolve2_image (cwd a b : String) : ∃ w, resolve2 cwd a b = normAbsChars w := by
  unfold resolve2
  by_cases hb : isAbsolute b = true
  · rw [if_pos hb]; exact ⟨b.data, rfl⟩
  · rw [if_neg hb]
    by_cases ha : isAbsolute a = true
    · rw [if_pos ha]; exact ⟨a.data ++ '/' :: b.data, rfl⟩
    · rw [if_neg ha]; exact ⟨cwd.data ++ '/' :: a.data ++ '/' :: b.data, rfl⟩

/-- `normAbsChars` is determined by the clean segments. -/
theorem normAbsChars_congr {w₁ w₂ : List Char} (h : cleanOf w₁ = cleanOf w₂) :
    normAbsChars w₁ = normAbsChars w₂ := by
  unfold normAbsChars
  rw [show normSegs false (splitSl w₁) = cleanOf w₁ from rfl,
    show normSegs false (splitSl w₂) = cleanOf w₂ from rfl, h]

/-- `path.relative` between two canonical absolute paths, segment-wise. -/
theorem relative_normAbs (cwd : String) (w₁ w₂ : List Char) :
    relative cwd (normAbsChars w₁) (normAbsChars w₂) =
      ⟨interSegs (((dropCommon (cleanOf w₁) (cleanOf w₂)).1).map (fun _ => ['.', '.']) ++
        (dropCommon (cleanOf w₁) (cleanOf w₂)).2)⟩ := by
  unfold relative
  rw [resolve1_normAbs, resolve1_normAbs, cleanSegsOf_normAbs, cleanSegsOf_normAbs]

/-- Resolving a clean relative path against a canonical absolute path appends
its segments. -/
theorem cleanOf_appendSegs (w : List Char) (r : String)
    (hST : ∀ a ∈ splitSl r.data, ¬ (a = [] ∨ a = ['.']) ∧ a ≠ ['.', '.']) :
    cleanOf ((normAbsChars w).data ++ '/' :: r.data) = cleanOf w ++ splitSl r.data := by
  rw [cleanOf, splitSl_append, splitSl_normAbs]
  unfold normSegs
  rw [runSegs]
  rw [List.foldl_append, List.foldl_cons, pushSeg_nilseg]
  by_cases hc : cleanOf w = []
  · rw [if_pos hc, hc]
    rw [show List.foldl (pushSeg false) [] ([[]] : List Seg) = [] from by
      rw [List.foldl_cons, pushSeg_nilseg, List.foldl_nil]]
    rw [← runSegs, runSegs_clean false _ [] hST, List.append_nil, List.nil_append,
      List.reverse_reverse]
  · rw [if_neg hc]
    rw [show List.foldl (pushSeg false) [] (cleanOf w) = (cleanOf w).reverse ++ [] from
      runSegs_clean false _ [] (fun a ha => (cleanOf_props w a ha).1), List.append_nil]
    rw [← runSegs, runSegs_clean false _ _ hST, List.reverse_append, List.reverse_reverse,
      List.reverse_reverse]

/-- Resolving `"."` against a canonical absolute path gives it back. -/
theorem cleanOf_appendDot (w : List Char) :
    cleanOf ((normAbsChars w).data ++ '/' :: ("." : String).data) = cleanOf w := by
  rw [cleanOf, splitSl_append, splitSl_normAbs]
  unfold normSegs
  rw [runSegs, List.foldl_append, List.foldl_cons, pushSeg_nilseg]
  by_cases hc : cleanOf w = []
  · rw [if_pos hc, hc]
    rfl
  · rw [if_neg hc]
    rw [show List.foldl (pushSeg false) [] (cleanOf w) = (cleanOf w).reverse ++ [] from
      runSegs_clean false _ [] (fun a ha => (cleanOf_props w a ha).1), List.append_nil]
    rw [show splitSl ("." : String).data = [['.']] from rfl, List.foldl_cons]
    rw [show pushSeg false (cleanOf w).reverse ['.'] = (cleanOf w).reverse from by
      unfold pushSeg; rw [if_pos (Or.inr rfl)]]
    rw [List.foldl_nil, List.reverse_reverse]

/-- Decomposition of the prefix check over canonical absolute paths: if
`normAbsChars w₂` starts with `normAbsChars w₁ ++ "/"` then the clean
segments of `w₂` extend those of `w₁` by at least one segment. -/
theorem startsWith_decomp (w₁ w₂ : List Char)
    (h : startsWithStr (normAbsChars w₂) (normAbsChars w₁ ++ "/") = true) :
    ∃ ST, cleanOf w₂ = cleanOf w₁ ++ ST ∧ ST ≠ [] ∧ cleanOf w₁ ≠ [] := by
  rw [startsWithStr, String.data_append] at h
  obtain ⟨tail, htail⟩ := isPrefixOf_exists _ _ h
  rw [normAbsChars_data, normAbsChars_data] at htail
  rw [show ("/" : String).data = ['/'] from rfl] at htail
  rw [List.append_assoc] at htail
  have htail' : interSegs (cleanOf w₂) = interSegs (cleanOf w₁) ++ '/' :: tail :=
    (List.cons.inj htail).2
  by_cases hc1 : cleanOf w₁ = []
  · exfalso
    rw [hc1] at htail'
    rw [show interSegs ([] : List Seg) = [] from rfl, List.nil_append] at htail'
    cases hc2 : cleanOf w₂ with
    | nil => rw [hc2] at htail'; exact absurd htail' (by simp [interSegs])
    | cons s t =>
      obtain ⟨⟨hp, _⟩, hfree⟩ := cleanOf_props w₂ s (hc2 ▸ List.mem_cons_self s t)
      have hs_ne : s ≠ [] := fun h' => hp (Or.inl h')
      obtain ⟨c, cs, rfl⟩ : ∃ c cs, s = c :: cs := by
        cases s with
        | nil => exact absurd rfl hs_ne
        | cons c cs => exact ⟨c, cs, rfl⟩
      have hc : c ≠ '/' := fun h' => hfree (h' ▸ List.mem_cons_self c cs)
      rw [hc2] at htail'
      have : interSegs ((c :: cs) :: t) = '/' :: tail := htail'
      cases t with
      | nil => exact hc (List.cons.inj this).1
      | cons u v => exact hc (List.cons.inj this).1
  · refine ⟨splitSl tail, ?_, splitSl_ne_nil tail, hc1⟩
    have happ := congrArg splitSl htail'
    rw [splitSl_append] at happ
    rw [splitSl_interSegs (cleanOf w₁) hc1 (fun a ha => (cleanOf_props w₁ a ha).2)] at happ
    by_cases hc2 : cleanOf w₂ = []
    · exfalso
      rw [hc2] at htail'
      have : ([] : List Char) = interSegs (cleanOf w₁) ++ '/' :: tail := htail'
      exact absurd this.symm (by simp)
    · rw [splitSl_interSegs (cleanOf w₂) hc2 (fun a ha => (cleanOf_props w₂ a ha).2)] at happ
      exact happ

end PathCore

namespace PathCore

theorem resolve2_rel (cwd : String) (a b : String) (hb : isAbsolute b = false)
    (ha : isAbsolute a = true) :
    resolve2 cwd a b = normAbsChars (a.data ++ '/' :: b.data) := by
  unfold resolve2
  rw [if_neg (by rw [hb]; simp), if_pos ha]

/-- Facts about a path assembled from clean, slash-free segments. -/
theorem cleanRel_facts (ST : List Seg) (hne : ST ≠ [])
    (hprops : ∀ a ∈ ST, (¬ (a = [] ∨ a = ['.']) ∧ a ≠ ['.', '.']) ∧ '/' ∉ a) :
    (⟨interSegs ST⟩ : String) ≠ "" ∧ isAbsolute (⟨interSegs ST⟩ : String) = false ∧
      normalizeStr ⟨interSegs ST⟩ = ⟨interSegs ST⟩ ∧
      splitSl (⟨interSegs ST⟩ : String).data = ST := by
  obtain ⟨h0, t0, rfl⟩ : ∃ h0 t0, ST = h0 :: t0 := by
    cases ST with
    | nil => exact absurd rfl hne
    | cons a b => exact ⟨a, b, rfl⟩
  have hfree : ∀ s ∈ h0 :: t0, '/' ∉ s := fun s hs => (hprops s hs).2
  have hne2 : ∀ s ∈ h0 :: t0, s ≠ [] ∧ '/' ∉ s :=
    fun s hs => ⟨fun h' => (hprops s hs).1.1 (Or.inl h'), (hprops s hs).2⟩
  have h0ne : h0 ≠ [] := (hne2 h0 (List.mem_cons_self h0 t0)).1
  refine ⟨?_, ?_, ?_, splitSl_interSegs _ (by simp) hfree⟩
  · intro hcontra
    exact interSegs_ne_nil h0 t0 h0ne (congrArg String.data hcontra)
  · exact isAbsoluteL_interSegs _ hne2
  · have hfix : normSegs (!false) (h0 :: t0) = h0 :: t0 :=
      normSegs_fixed true _ (fun a ha => (hprops a ha).1)
    have := normalize_fixpoint false false (h0 :: t0) (by simp)
      (fun a ha => ⟨(hne2 a ha).1, fun h' => (hprops a ha).1.1 (Or.inr h'),
        (hprops a ha).2⟩) hfix
    simpa using this

end PathCore

/-- Inversion of a successful `sanitizePath` with no `rootDir` and
`toPosix = false`. -/
theorem sanitizePath_none_inv (cwd x : String) (opts : PathSanitizeOptions)
    (info : SanitizedPathInfo) (hroot : opts.rootDir = none) (hposix : opts.toPosix = false)
    (h : sanitizePath cwd x opts = .ok info) :
    (isAbsolute (normalizeStr x) = true ∧ opts.allowAbsolute = false ∧
      info.sanitizedPath = stripRootMarker (normalizeStr x)) ∨
    (isAbsolute (normalizeStr x) = true ∧ opts.allowAbsolute = true ∧
      info.sanitizedPath = normalizeStr x) ∨
    (isAbsolute (normalizeStr x) = false ∧ info.sanitizedPath = normalizeStr x) := by
  unfold sanitizePath at h
  by_cases hx : x = ""
  · rw [if_pos hx] at h; cases h
  · rw [if_neg hx] at h
    by_cases hnull : containsNull x = true
    · rw [hnull] at h; simp only [if_true] at h; cases h
    · rw [Bool.not_eq_true] at hnull
      rw [hnull] at h
      simp only [Bool.false_eq_true, if_false] at h
      simp only [hroot, hposix, Option.map_none', Bool.false_eq_true, if_false] at h
      by_cases habs : isAbsolute (normalizeStr x) = true
      · rw [if_pos habs] at h
        by_cases hallow : opts.allowAbsolute = true
        · rw [if_neg (by rw [hallow]; simp)] at h
          cases h
          exact Or.inr (Or.inl ⟨habs, hallow, rfl⟩)
        · rw [Bool.not_eq_true] at hallow
          rw [if_pos (by rw [hallow]; simp)] at h
          cases h
          exact Or.inl ⟨habs, hallow, rfl⟩
      · rw [if_neg habs] at h
        by_cases hcwd : ¬ (startsWithStr (resolve1 cwd (normalizeStr x))
            (resolve1 cwd "." ++ "/") = true) ∧
            resolve1 cwd (normalizeStr x) ≠ resolve1 cwd "."
        · rw [if_pos hcwd] at h; cases h
        · rw [if_neg hcwd] at h
          cases h
          exact Or.inr (Or.inr ⟨by rw [Bool.not_eq_true] at habs; exact habs, rfl⟩)

/-- Inversion of a successful `sanitizePath` with a `rootDir` and
`toPosix = false`: the containment check passed and the result is the
root-relative path (`"."` when empty). -/
theorem sanitizePath_root_inv (cwd x : String) (opts : PathSanitizeOptions) (rd0 : String)
    (info : SanitizedPathInfo) (hroot : opts.rootDir = some rd0) (hposix : opts.toPosix = false)
    (h : sanitizePath cwd x opts = .ok info) :
    (startsWithStr (resolve2 cwd (resolve1 cwd rd0) (normalizeStr x))
        (resolve1 cwd rd0 ++ "/") = true ∨
      resolve2 cwd (resolve1 cwd rd0) (normalizeStr x) = resolve1 cwd rd0) ∧
    info.sanitizedPath =
      (if relative cwd (resolve1 cwd rd0)
          (resolve2 cwd (resolve1 cwd rd0) (normalizeStr x)) = "" then "."
       else relative cwd (resolve1 cwd rd0)
          (resolve2 cwd (resolve1 cwd rd0) (normalizeStr x))) := by
  unfold sanitizePath at h
  by_cases hx : x = ""
  · rw [if_pos hx] at h; cases h
  · rw [if_neg hx] at h
    by_cases hnull : containsNull x = true
    · rw [hnull] at h; simp only [if_true] at h; cases h
    · rw [Bool.not_eq_true] at hnull
      rw [hnull] at h
      simp only [Bool.false_eq_true, if_false] at h
      simp only [hroot, hposix, Option.map_some', Bool.false_eq_true, if_false] at h
      by_cases hviol : ¬ (startsWithStr (resolve2 cwd (resolve1 cwd rd0) (normalizeStr x))
          (resolve1 cwd rd0 ++ "/") = true) ∧
          resolve2 cwd (resolve1 cwd rd0) (normalizeStr x) ≠ resolve1 cwd rd0
      · rw [if_pos hviol] at h; cases h
      · rw [if_neg hviol] at h
        push_neg at hviol
        refine ⟨?_, ?_⟩
        · by_cases hsw : startsWithStr (resolve2 cwd (resolve1 cwd rd0) (normalizeStr x))
              (resolve1 cwd rd0 ++ "/") = true
          · exact Or.inl hsw
          · exact Or.inr (hviol hsw)
        · by_cases hdead : isAbsolute (if relative cwd (resolve1 cwd rd0)
              (resolve2 cwd (resolve1 cwd rd0) (normalizeStr x)) = "" then "."
             else relative cwd (resolve1 cwd rd0)
              (resolve2 cwd (resolve1 cwd rd0) (normalizeStr x))) = true ∧
              ¬ (opts.allowAbsolute = true)
          · rw [if_pos hdead] at h; cases h
          · rw [if_neg hdead] at h
            cases h
            rfl

/-- C4 counterexample: `sanitizePath` is not idempotent as stated. With
default options, input `"/"` succeeds with sanitized path `""`, which the
second call rejects as empty input. With `toPosix = true`, `"a\..\b"`
sanitizes to `"a/../b"` (the backslashes hide the `..` from `normalize`),
which re-sanitizes to `"b"`. With default options, the absolute input
`"/\./a"` is stripped to `"./a"`, which re-sanitizes to `"a"`. -/
theorem claim_C4_counterexample :
    (sanitizePath "/home" "/" {}).map SanitizedPathInfo.sanitizedPath = .ok "" ∧
    (sanitizePath "/home" "" {}) =
      .error (mkValErr "Invalid path input: must be a non-empty string." "") ∧
    (sanitizePath "/home" "a\\..\\b"
        { toPosix := true }).map SanitizedPathInfo.sanitizedPath = .ok "a/../b" ∧
    (sanitizePath "/home" "a/../b"
        { toPosix := true }).map SanitizedPathInfo.sanitizedPath = .ok "b" ∧
    (sanitizePath "/home" "/\\./a" {}).map SanitizedPathInfo.sanitizedPath = .ok "./a" ∧
    (sanitizePath "/home" "./a" {}).map SanitizedPathInfo.sanitizedPath = .ok "a" :=
  ⟨rfl, rfl, rfl, rfl, rfl, rfl⟩

/-- C4 (amended): for `toPosix = false`, and excluding the branch that strips
the root marker from a disallowed absolute input (i.e. when a `rootDir` is
supplied, or absolute paths are allowed, or the normalized input is not
absolute), a successful `sanitizePath` is idempotent: re-sanitizing the
returned `sanitizedPath` with the same options yields the same
`sanitizedPath` whenever it succeeds. -/
theorem claim_C4_idempotent (cwd x : String) (opts : PathSanitizeOptions)
    (hposix : opts.toPosix = false)
    (hquirk : opts.rootDir ≠ none ∨ opts.allowAbsolute = true ∨
      isAbsolute (normalizeStr x) = false)
    (info info₂ : SanitizedPathInfo)
    (h1 : sanitizePath cwd x opts = .ok info)
    (h2 : sanitizePath cwd info.sanitizedPath opts = .ok info₂) :
    info₂.sanitizedPath = info.sanitizedPath := by
  cases hroot : opts.rootDir with
  | none =>
    have hq : opts.allowAbsolute = true ∨ isAbsolute (normalizeStr x) = false := by
      rcases hquirk with h | h | h
      · exact absurd hroot h
      · exact Or.inl h
      · exact Or.inr h
    rcases sanitizePath_none_inv cwd x opts info hroot hposix h1 with
      ⟨habs, hallow, hsp⟩ | ⟨habs, hallow, hsp⟩ | ⟨habs, hsp⟩
    · exfalso
      rcases hq with h | h
      · rw [hallow] at h; cases h
      · rw [habs] at h; cases h
    · rcases sanitizePath_none_inv cwd info.sanitizedPath opts info₂ hroot hposix h2 with
        ⟨habs₂, hallow₂, hsp₂⟩ | ⟨habs₂, hallow₂, hsp₂⟩ | ⟨habs₂, hsp₂⟩
      · rw [hallow] at hallow₂; cases hallow₂
      · rw [hsp₂, hsp]
        exact normalize_idem x
      · exfalso
        rw [hsp, normalize_idem, habs] at habs₂
        cases habs₂
    · rcases sanitizePath_none_inv cwd info.sanitizedPath opts info₂ hroot hposix h2 with
        ⟨habs₂, hallow₂, hsp₂⟩ | ⟨habs₂, hallow₂, hsp₂⟩ | ⟨habs₂', hsp₂⟩
      · exfalso
        rw [hsp, normalize_idem, habs] at habs₂
        cases habs₂
      · exfalso
        rw [hsp, normalize_idem, habs] at habs₂
        cases habs₂
      · rw [hsp₂, hsp]
        exact normalize_idem x
  | some rd0 =>
    obtain ⟨hb, hfin⟩ := sanitizePath_root_inv cwd x opts rd0 info hroot hposix h1
    obtain ⟨hb₂, hfin₂⟩ :=
      sanitizePath_root_inv cwd info.sanitizedPath opts rd0 info₂ hroot hposix h2
    obtain ⟨w₁, hw₁⟩ := resolve1_image cwd rd0
    obtain ⟨w₂, hw₂⟩ := resolve2_image cwd (resolve1 cwd rd0) (normalizeStr x)
    have hra : isAbsolute (resolve1 cwd rd0) = true := by
      rw [hw₁]; exact isAbsolute_normAbsChars w₁
    have hrel0 : relative cwd (resolve1 cwd rd0) (resolve1 cwd rd0) = "" := by
      rw [hw₁, relative_normAbs]
      have h' := dropCommon_append (cleanOf w₁) []
      rw [List.append_nil] at h'
      rw [h']
      rfl
    cases hb with
    | inr heq =>
      rw [heq] at hfin
      rw [hrel0] at hfin
      rw [if_pos rfl] at hfin
      have hfp₂ : resolve2 cwd (resolve1 cwd rd0) (normalizeStr info.sanitizedPath) =
          resolve1 cwd rd0 := by
        rw [hfin]
        rw [show normalizeStr "." = "." from rfl]
        rw [resolve2_rel cwd (resolve1 cwd rd0) "." rfl hra, hw₁]
        exact normAbsChars_congr (cleanOf_appendDot w₁)
      rw [hfp₂, hrel0] at hfin₂
      rw [if_pos rfl] at hfin₂
      rw [hfin₂, hfin]
    | inl hsw =>
      rw [hw₂, hw₁] at hsw
      obtain ⟨ST, hC2, hSTne, hC1ne⟩ := startsWith_decomp w₁ w₂ hsw
      have hprops : ∀ a ∈ ST, (¬ (a = [] ∨ a = ['.']) ∧ a ≠ ['.', '.']) ∧ '/' ∉ a := by
        intro a ha
        exact cleanOf_props w₂ a (by rw [hC2]; exact List.mem_append_right _ ha)
      obtain ⟨hne, habsF, hnorm, hsplit⟩ := cleanRel_facts ST hSTne hprops
      have hdc : dropCommon (cleanOf w₁) (cleanOf w₂) = ([], ST) := by
        rw [hC2]; exact dropCommon_append _ _
      have hrel1 : relative cwd (resolve1 cwd rd0)
          (resolve2 cwd (resolve1 cwd rd0) (normalizeStr x)) = ⟨interSegs ST⟩ := by
        rw [hw₂, hw₁, relative_normAbs, hdc]
        rfl
      rw [hrel1, if_neg hne] at hfin
      have hfp₂ : resolve2 cwd (resolve1 cwd rd0) (normalizeStr info.sanitizedPath) =
          normAbsChars w₂ := by
        rw [hfin, hnorm]
        rw [resolve2_rel cwd (resolve1 cwd rd0) ⟨interSegs ST⟩ habsF hra, hw₁]
        apply normAbsChars_congr
        rw [cleanOf_appendSegs w₁ ⟨interSegs ST⟩ (by
          intro a ha
          rw [hsplit] at ha
          exact (hprops a ha).1)]
        rw [hsplit, hC2]
      have hrel2 : relative cwd (resolve1 cwd rd0) (normAbsChars w₂) = ⟨interSegs ST⟩ := by
        rw [hw₁, relative_normAbs, hdc]
        rfl
      rw [hfp₂, hrel2, if_neg hne] at hfin₂
      rw [hfin₂, hfin]

/-- C4 witness: with default options in `/home`, sanitizing `"a/./b"`
succeeds with `"a/b"`, and re-sanitizing `"a/b"` returns `"a/b"` again. -/
theorem claim_C4_idempotent_witness :
    ({ sanitizedPath := "a/b", originalInput := "a/b", wasAbsolute := false,
       convertedToRelative := false, optionsUsed := {} } : SanitizedPathInfo).sanitizedPath =
    ({ sanitizedPath := "a/b", originalInput := "a/./b", wasAbsolute := false,
       convertedToRelative := false, optionsUsed := {} } : SanitizedPathInfo).sanitizedPath :=
  claim_C4_idempotent "/home" "a/./b" {} rfl (Or.inr (Or.inr rfl))
    { sanitizedPath := "a/b", originalInput := "a/./b", wasAbsolute := false,
      convertedToRelative := false, optionsUsed := {} }
    { sanitizedPath := "a/b", originalInput := "a/b", wasAbsolute := false,
      convertedToRelative := false, optionsUsed := {} }
    rfl rfl
